import Mathlib

/-!
Verification development for a server-side GraphQL proxy (TypeScript).

The embedding works over `List Char` / `String` and a small JSON value type.
JavaScript objects are modelled as association lists in insertion order
(JS objects have unique keys; assignment to a fresh key appends, assignment
to an existing key overwrites in place, mirroring JS property-order rules).
JavaScript string truthiness (`if (s)`, `a || b`) is modelled explicitly:
a string is falsy exactly when it is empty; `undefined` is `Option.none`.
-/

namespace GqlProxy

/-- JSON values.  Numbers are stored as a decimal mantissa/exponent pair
(JS number formatting/precision beyond that is not modelled; no claim in
this development depends on numeric fine structure). -/
inductive Json where
  | null : Json
  | bool (b : Bool) : Json
  | num (mantissa : Int) (exp10 : Int) : Json
  | str (s : String) : Json
  | arr (elems : List Json) : Json
  | obj (fields : List (String × Json)) : Json

/-- JS object property assignment `o[k] = v`: overwrite in place when the key
exists, append otherwise. -/
def setField : List (String × Json) → String → Json → List (String × Json)
  | [], k, v => [(k, v)]
  | (k', v') :: rest, k, v =>
      if k' = k then (k, v) :: rest else (k', v') :: setField rest k v

/-- JS `a || b` on an optionally-present string: an absent or empty string
falls through to the default. -/
def jsOrStr (a : Option String) (b : String) : String :=
  match a with
  | none => b
  | some s => if s = "" then b else s

/-- Truthiness of an optionally-present JS string: present and non-empty. -/
def strTruthy (a : Option String) : Bool :=
  match a with
  | none => false
  | some s => s ≠ ""

/-- The inbound request context (the `Request` interface of the source):
cookies, headers, an optional parsed body and an optional `params`
query-string field. -/
structure Request where
  cookies : List (String × String)
  headers : List (String × String)
  body : Option Json := none
  queryParams : Option String := none

namespace extractRequestInfo

/-- `getCustomerToken`: `req.cookies['vsf-customer']`. -/
def getCustomerToken (req : Request) : Option String :=
  req.cookies.lookup "vsf-customer"

/-- `getStore`: `req?.headers?.['site-store'] || 'default'`. -/
def getStore (req : Request) : String :=
  jsOrStr (req.headers.lookup "site-store") "default"

/-- `getCurrency`: `req.cookies['vsf-currency']`. -/
def getCurrency (req : Request) : Option String :=
  req.cookies.lookup "vsf-currency"

/-- `getMagentoCacheId`: `req.cookies['X-Magento-Cache-Id']`. -/
def getMagentoCacheId (req : Request) : Option String :=
  req.cookies.lookup "X-Magento-Cache-Id"

/-- `getUuid`: `req.cookies['fp-uuid']`. -/
def getUuid (req : Request) : Option String :=
  req.cookies.lookup "fp-uuid"

/-- `getXForwardFor`: `req.headers['X-Forwarded-For'] || req.headers['x-forwarded-for']`. -/
def getXForwardFor (req : Request) : Option String :=
  match req.headers.lookup "X-Forwarded-For" with
  | some s => if s = "" then req.headers.lookup "x-forwarded-for" else some s
  | none => req.headers.lookup "x-forwarded-for"

/-- `getUserAgent`: `req.headers['user-agent']`. -/
def getUserAgent (req : Request) : Option String :=
  req.headers.lookup "user-agent"

end extractRequestInfo

/-- `uuid?.length > 0` style guard: `undefined?.length > 0` is false. -/
def lenPositive (a : Option String) : Bool :=
  match a with
  | none => false
  | some s => s.length > 0

/-- One conditional assignment of the derived-header construction: the
source assigns each header key at most once and all seven keys are
distinct, so the sequence of `if (x) headers.K = v` statements is modelled
as an ordered concatenation of zero-or-one-entry lists. -/
def optEntry (cond : Bool) (k v : String) : List (String × String) :=
  if cond then [(k, v)] else []

/-- JS string-map property assignment (same semantics as `setField`). -/
def setFieldStr : List (String × String) → String → String → List (String × String)
  | [], k, v => [(k, v)]
  | (k', v') :: rest, k, v =>
      if k' = k then (k, v) :: rest else (k', v') :: setFieldStr rest k v

/-- JS object spread `{...headers, ...customHeaders}` where both operands
are string maps: apply each override in order via property assignment. -/
def mergeObjStr (base overrides : List (String × String)) : List (String × String) :=
  overrides.foldl (fun acc kv => setFieldStr acc kv.1 kv.2) base

/-- `getHeaders(req, customHeaders)`: derive upstream headers from cookies
and headers, then merge the caller overrides last. -/
def getHeaders (req : Request) (customHeaders : List (String × String)) :
    List (String × String) :=
  let customerToken := extractRequestInfo.getCustomerToken req
  let store := extractRequestInfo.getStore req
  let currency := extractRequestInfo.getCurrency req
  let magentoCacheId := extractRequestInfo.getMagentoCacheId req
  let uuid := extractRequestInfo.getUuid req
  let ipAddress := extractRequestInfo.getXForwardFor req
  let userAgent := extractRequestInfo.getUserAgent req
  let headers :=
    optEntry (strTruthy customerToken) "Authorization"
      ("Bearer " ++ customerToken.getD "") ++
    optEntry (store ≠ "") "store" store ++
    optEntry (strTruthy currency) "Content-Currency" (currency.getD "") ++
    optEntry (strTruthy magentoCacheId) "X-Magento-Cache-Id" (magentoCacheId.getD "") ++
    optEntry (lenPositive uuid) "Correlation-ID" (uuid.getD "") ++
    optEntry (lenPositive ipAddress) "Real-IP" (ipAddress.getD "") ++
    optEntry (lenPositive userAgent) "User-Agent" (userAgent.getD "")
  mergeObjStr headers customHeaders

/-- `isEmptyObject(obj)`: `null`/`undefined` are empty; otherwise empty iff
the value has no own keys and its constructor is `Object` (so `[]`, strings
and numbers are all non-empty by the constructor check). -/
def isEmptyObject : Option Json → Bool
  | none => true
  | some Json.null => true
  | some (Json.obj []) => true
  | some _ => false

/-- JSON whitespace accepted by `JSON.parse`. -/
def jsonWsChar (c : Char) : Bool :=
  c = ' ' || c = '\t' || c = '\n' || c = '\r'

/-- Hex digit value. -/
def hexVal (c : Char) : Option Nat :=
  if '0' ≤ c ∧ c ≤ '9' then some (c.toNat - '0'.toNat)
  else if 'a' ≤ c ∧ c ≤ 'f' then some (c.toNat - 'a'.toNat + 10)
  else if 'A' ≤ c ∧ c ≤ 'F' then some (c.toNat - 'A'.toNat + 10)
  else none

/-- Parse the body of a JSON string literal (after the opening quote).
Supports the JSON escapes; `\uXXXX` only for non-surrogate code points
(JS surrogate-pair recombination is not modelled; no claim uses it). -/
def parseStrLit : List Char → Option (List Char × List Char)
  | [] => none
  | '"' :: rest => some ([], rest)
  | '\\' :: 'u' :: a :: b :: c :: d :: rest' =>
      (match hexVal a, hexVal b, hexVal c, hexVal d with
       | some x, some y, some z, some w =>
           let n := ((x * 16 + y) * 16 + z) * 16 + w
           if h : n < 0xd800 ∨ (0xdfff < n ∧ n < 0x110000) then
             (parseStrLit rest').map (fun p => (Char.ofNatAux n h :: p.1, p.2))
           else none
       | _, _, _, _ => none)
  | '\\' :: e :: rest =>
      (match e with
       | '"' => (parseStrLit rest).map (fun p => ('"' :: p.1, p.2))
       | '\\' => (parseStrLit rest).map (fun p => ('\\' :: p.1, p.2))
       | '/' => (parseStrLit rest).map (fun p => ('/' :: p.1, p.2))
       | 'b' => (parseStrLit rest).map (fun p => ('\x08' :: p.1, p.2))
       | 'f' => (parseStrLit rest).map (fun p => ('\x0c' :: p.1, p.2))
       | 'n' => (parseStrLit rest).map (fun p => ('\n' :: p.1, p.2))
       | 'r' => (parseStrLit rest).map (fun p => ('\x0d' :: p.1, p.2))
       | 't' => (parseStrLit rest).map (fun p => ('\t' :: p.1, p.2))
       | _ => none)
  | c :: rest => (parseStrLit rest).map (fun p => (c :: p.1, p.2))

/-- Digits of a number literal as a natural accumulator. -/
def parseDigits (acc : Nat) : List Char → Nat × List Char
  | c :: rest =>
      if '0' ≤ c ∧ c ≤ '9' then parseDigits (acc * 10 + (c.toNat - '0'.toNat)) rest
      else (acc, c :: rest)
  | [] => (acc, [])

/-- Parse a JSON number after an optional leading minus sign (accepts a mild
superset of the JSON grammar; numeric fine structure is irrelevant to every
claim). -/
def parseNumBody (neg : Bool) (l : List Char) : Option (Json × List Char) :=
  match l with
  | c :: _ =>
      if '0' ≤ c ∧ c ≤ '9' then
        let (ip, r1) := parseDigits 0 l
        let (frac, r2) :=
          match r1 with
          | '.' :: fr =>
              let (fd, r) := parseDigits 0 fr
              ((fd, (fr.length - r.length)), r)
          | _ => ((0, 0), r1)
        let (ex, r3) :=
          match r2 with
          | 'e' :: '+' :: er => let (ed, r) := parseDigits 0 er; ((ed : Int), r)
          | 'e' :: '-' :: er => let (ed, r) := parseDigits 0 er; ((-(ed : Int)), r)
          | 'e' :: er => let (ed, r) := parseDigits 0 er; ((ed : Int), r)
          | 'E' :: '+' :: er => let (ed, r) := parseDigits 0 er; ((ed : Int), r)
          | 'E' :: '-' :: er => let (ed, r) := parseDigits 0 er; ((-(ed : Int)), r)
          | 'E' :: er => let (ed, r) := parseDigits 0 er; ((ed : Int), r)
          | _ => ((0 : Int), r2)
        let mantissa : Int := (ip * 10 ^ frac.2 + frac.1 : Nat)
        let mantissa := if neg then -mantissa else mantissa
        some (Json.num mantissa (ex - frac.2), r3)
      else none
  | [] => none

/-- Fuel-driven JSON parser core (`JSON.parse` is an external library
routine; this models its grammar).  `mode = 0` parses one value; `mode = 1`
parses one-or-more comma-separated array elements up to `]` (wrapped in
`Json.arr`); any other mode parses one-or-more object members up to `\x7d`
(wrapped in `Json.obj`). -/
def parseCore : Nat → Nat → List Char → Option (Json × List Char)
  | 0, _, _ => none
  | fuel + 1, 0, l =>
      (match l.dropWhile jsonWsChar with
       | '"' :: rest => (parseStrLit rest).map (fun p => (Json.str (String.mk p.1), p.2))
       | 'n' :: 'u' :: 'l' :: 'l' :: rest => some (Json.null, rest)
       | 't' :: 'r' :: 'u' :: 'e' :: rest => some (Json.bool true, rest)
       | 'f' :: 'a' :: 'l' :: 's' :: 'e' :: rest => some (Json.bool false, rest)
       | '[' :: rest =>
           (match rest.dropWhile jsonWsChar with
            | ']' :: rest' => some (Json.arr [], rest')
            | _ => parseCore fuel 1 rest)
       | '\x7b' :: rest =>
           (match rest.dropWhile jsonWsChar with
            | '\x7d' :: rest' => some (Json.obj [], rest')
            | _ => parseCore fuel 2 rest)
       | '-' :: rest => parseNumBody true rest
       | rest => parseNumBody false rest)
  | fuel + 1, 1, l =>
      (match parseCore fuel 0 l with
       | none => none
       | some (v, r) =>
           match r.dropWhile jsonWsChar with
           | ',' :: r' =>
               (parseCore fuel 1 r').map (fun p =>
                 match p.1 with
                 | Json.arr xs => (Json.arr (v :: xs), p.2)
                 | _ => (Json.arr [v], p.2))
           | ']' :: r' => some (Json.arr [v], r')
           | _ => none)
  | fuel + 1, _, l =>
      (match l.dropWhile jsonWsChar with
       | '"' :: rest =>
           (match parseStrLit rest with
            | none => none
            | some (k, r) =>
                match r.dropWhile jsonWsChar with
                | ':' :: r' =>
                    (match parseCore fuel 0 r' with
                     | none => none
                     | some (v, r'') =>
                         match r''.dropWhile jsonWsChar with
                         | ',' :: r3 =>
                             (parseCore fuel 2 r3).map (fun p =>
                               match p.1 with
                               | Json.obj fs => (Json.obj ((String.mk k, v) :: fs), p.2)
                               | _ => (Json.obj [(String.mk k, v)], p.2))
                         | '\x7d' :: r3 => some (Json.obj [(String.mk k, v)], r3)
                         | _ => none)
                | _ => none)
       | _ => none)

/-- `JSON.parse(s)`: parse a full JSON document (trailing whitespace only). -/
def jsonParse (s : String) : Option Json :=
  match parseCore (s.length + 1) 0 s.data with
  | some (v, rest) => if rest.dropWhile jsonWsChar = [] then some v else none
  | none => none

/-- JS `params?.length`: defined for arrays and strings only. -/
def jsLength : Json → Option Nat
  | Json.arr l => some l.length
  | Json.str s => some s.length
  | _ => none

/-- JS `params[params.length - 1]`: last element of an array, last character
of a string (as a one-character string), `undefined` otherwise. -/
def jsIndexLast : Json → Option Json
  | Json.arr l => l.getLast?
  | Json.str s =>
      match s.data.getLast? with
      | some c => some (Json.str (String.mk [c]))
      | none => none
  | _ => none

/-- Lines 167-169 of the source: when the inbound body is empty/absent the
parameters come from `JSON.parse(req?.query?.params || '[]')`, otherwise
they are the body itself.  A parse failure is rethrown by the source with a
descriptive prefix; the message text is not modelled. -/
def requestParams (req : Request) : Except String Json :=
  if isEmptyObject req.body then
    match jsonParse (jsOrStr req.queryParams "[]") with
    | some j => Except.ok j
    | none => Except.error "parameter parse failure"
  else Except.ok (req.body.getD Json.null)

/-- Line 170 of the source: `params?.length > 1 ? params[params.length - 1] : \x7b\x7d`
— the caller-supplied header overrides handed to `getHeaders`. -/
def selectCustomHeaders (params : Json) : Json :=
  if (match jsLength params with | some n => decide (n > 1) | none => false) then
    (jsIndexLast params).getD Json.null
  else Json.obj []

/-- The `customHeaders` value produced by `getParamsAndHeaders` for a request. -/
def requestCustomHeaders (req : Request) : Except String Json :=
  (requestParams req).map selectCustomHeaders

/-- `getResponseCacheId(headers)`: `''` for a non-object argument, otherwise
`headers['x-magento-cache-id'] || headers['X-Magento-Cache-Id'] || ''`. -/
def getResponseCacheId (headers : Option (List (String × String))) : String :=
  match headers with
  | none => ""
  | some hs =>
      jsOrStr (hs.lookup "x-magento-cache-id")
        (jsOrStr (hs.lookup "X-Magento-Cache-Id") "")

/-- The whitespace class of JavaScript regexp `\s` (also the set trimmed by
`String.prototype.trim`). -/
def isWsJS (c : Char) : Bool :=
  c = '\t' || c = '\n' || c = '\x0b' || c = '\x0c' || c = '\x0d' || c = ' ' ||
  c = ' ' || c = ' ' || (0x2000 ≤ c.toNat && c.toNat ≤ 0x200A) ||
  c = ' ' || c = ' ' || c = ' ' || c = ' ' ||
  c = '　' || c = '﻿'

/-- JavaScript line terminators (what `.` does not match and multiline `$`
matches before). -/
def isLineTerm (c : Char) : Bool :=
  c = '\n' || c = '\x0d' || c = ' ' || c = ' '

/-- The six characters of the `[\x7b\x7d(),:]` class in the
whitespace-removal step of `compressGraphQLQuery`. -/
def isSymChar (c : Char) : Bool :=
  c = '\x7b' || c = '\x7d' || c = '(' || c = ')' || c = ',' || c = ':'

/-- Decimal digit characters of a natural number (the JS `${i}` rendering),
fuel-structural so that it evaluates in the kernel. -/
def natToDigitsGo : Nat → Nat → List Char → List Char
  | 0, _, acc => acc
  | fuel + 1, n, acc =>
      let d := Char.ofNat ('0'.toNat + n % 10)
      if n < 10 then d :: acc else natToDigitsGo fuel (n / 10) (d :: acc)

/-- Decimal rendering of a natural number. -/
def natToDigits (n : Nat) : List Char :=
  natToDigitsGo (n + 1) n []

/-- The placeholder ``__PROTECTED_PARAM_${i}__`` protecting the i-th
parenthesis group. -/
def placeholder (i : Nat) : List Char :=
  "__PROTECTED_PARAM_".data ++ natToDigits i ++ "__".data

/-- Scanner for step 1 of `compressGraphQLQuery` — the global replace of
`\([^)]*\)`.  `buf` is `some acc` (content so far, reversed) while inside
an open group: the group's content cannot contain `)`, so the first `)`
closes it; a group still open at end of input never matched and is
restored literally.  `i` is the running `sectionIndex`. -/
def protectParensGo : Nat → Option (List Char) → List Char → List Char × List (List Char)
  | _, none, [] => ([], [])
  | _, some buf, [] => ('(' :: buf.reverse, [])
  | i, none, c :: rest =>
      if c = '(' then protectParensGo i (some []) rest
      else
        let p := protectParensGo i none rest
        (c :: p.1, p.2)
  | i, some buf, c :: rest =>
      if c = ')' then
        let p := protectParensGo (i + 1) none rest
        (placeholder i ++ p.1, ('(' :: (buf.reverse ++ [')'])) :: p.2)
      else protectParensGo i (some (c :: buf)) rest

/-- Step 1 of `compressGraphQLQuery`: replace every occurrence of
`\([^)]*\)` (left to right) by a fresh placeholder, collecting the
protected substrings in occurrence order. -/
def protectParens (l : List Char) (i : Nat) : List Char × List (List Char) :=
  protectParensGo i none l

/-- The text inserted for every `\x7d` in step 2 (`' __typename \x7d'`). -/
def typenameBlock : List Char := " __typename \x7d".data

/-- Step 2 of `compressGraphQLQuery`: `replace(/\x7d/g, ' __typename \x7d')`. -/
def addTypename : List Char → List Char
  | [] => []
  | c :: rest =>
      if c = '\x7d' then typenameBlock ++ addTypename rest
      else c :: addTypename rest

/-- ECMAScript `GetSubstitution` for a plain-string pattern (no capture
groups): in the replacement text, `$$` yields `$`, `$&` the matched
substring, `` $` `` (dollar, backquote, i.e. `Char.ofNat 96`) the portion
of the subject before the match, `$'` the portion after it; any other `$`
(including `$1`-`$9` and `$<`, as there are no captures) is literal. -/
def expandDollar (matched before after : List Char) : List Char → List Char
  | [] => []
  | c :: rest =>
      if c = '$' then
        match rest with
        | [] => ['$']
        | c2 :: rest2 =>
            if c2 = '$' then '$' :: expandDollar matched before after rest2
            else if c2 = '&' then matched ++ expandDollar matched before after rest2
            else if c2 = Char.ofNat 96 then before ++ expandDollar matched before after rest2
            else if c2 = '\'' then after ++ expandDollar matched before after rest2
            else '$' :: expandDollar matched before after (c2 :: rest2)
      else c :: expandDollar matched before after rest

/-- Scanner for JS `String.replace` with a plain-string pattern: `acc` is
the already-scanned text (reversed); at the first occurrence of `pat` the
replacement is substituted via `GetSubstitution` and the rest kept. -/
def replaceFirstGo (pat repl : List Char) : List Char → List Char → List Char
  | acc, [] =>
      if pat.isPrefixOf [] then acc.reverse ++ expandDollar pat acc.reverse [] repl
      else acc.reverse
  | acc, c :: rest =>
      if pat.isPrefixOf (c :: rest) then
        acc.reverse ++
          expandDollar pat acc.reverse ((c :: rest).drop pat.length) repl ++
          (c :: rest).drop pat.length
      else replaceFirstGo pat repl (c :: acc) rest

/-- JS `String.replace` with a plain-string pattern: replace the first
occurrence only, processing the `$`-substitution patterns the replacement
string is subject to. -/
def replaceFirst (l pat repl : List Char) : List Char :=
  replaceFirstGo pat repl [] l

/-- Step 3 of `compressGraphQLQuery`: restore each protected section in
index order via first-occurrence replacement. -/
def restoreAll : List Char → List (List Char) → Nat → List Char
  | l, [], _ => l
  | l, s :: rest, i => restoreAll (replaceFirst l (placeholder i) s) rest (i + 1)

/-- Scanner for `replace(/#.*$/gm, '')`: while inside a comment
(`inComment`), drop characters until a line terminator (which `.` does not
match, so it is kept). -/
def stripCommentsGo : Bool → List Char → List Char
  | _, [] => []
  | true, c :: rest =>
      if isLineTerm c then c :: stripCommentsGo false rest
      else stripCommentsGo true rest
  | false, c :: rest =>
      if c = '#' then stripCommentsGo true rest
      else c :: stripCommentsGo false rest

/-- `replace(/#.*$/gm, '')`: drop every `#` together with the rest of its
line (up to, not including, the next line terminator). -/
def stripComments (l : List Char) : List Char :=
  stripCommentsGo false l

/-- Scanner for `replace(/\s+/g, ' ')`: a maximal whitespace run (tracked
by `inRun`) is emitted as a single space. -/
def collapseWsGo : Bool → List Char → List Char
  | _, [] => []
  | inRun, c :: rest =>
      if isWsJS c then
        if inRun then collapseWsGo true rest
        else ' ' :: collapseWsGo true rest
      else c :: collapseWsGo false rest

/-- `replace(/\s+/g, ' ')`: collapse every whitespace run to one space. -/
def collapseWs (l : List Char) : List Char :=
  collapseWsGo false l

/-- Scanner for `replace(/\s*([\x7b\x7d(),:])\s*/g, '$1')` (leftmost-match
global replace): `pending` buffers a whitespace run whose fate is unknown
(dropped if a symbol follows, kept otherwise) and `skip` is set right after
an emitted symbol so that its trailing whitespace is dropped. -/
def stripSymWsGo : List Char → Bool → List Char → List Char
  | pending, _, [] => pending
  | pending, skip, c :: rest =>
      if isSymChar c then c :: stripSymWsGo [] true rest
      else if isWsJS c then
        if skip then stripSymWsGo pending skip rest
        else stripSymWsGo (pending ++ [c]) false rest
      else pending ++ c :: stripSymWsGo [] false rest

/-- `replace(/\s*([\x7b\x7d(),:])\s*/g, '$1')`: a symbol swallows the
whitespace around it; a whitespace run not ending at a symbol is kept. -/
def stripSymWs (l : List Char) : List Char :=
  stripSymWsGo [] false l

/-- Right half of `String.prototype.trim`. -/
def trimRight (l : List Char) : List Char :=
  (l.reverse.dropWhile isWsJS).reverse

/-- `String.prototype.trim`: strip leading and trailing whitespace. -/
def trimWs (l : List Char) : List Char :=
  trimRight (l.dropWhile isWsJS)

/-- The full `compressGraphQLQuery` pipeline on character lists: protect
parenthesis groups, add `__typename` before every remaining `\x7d`, restore
the protected sections, then strip comments, collapse whitespace, remove
whitespace around symbols and trim. -/
def compressChars (l : List Char) : List Char :=
  let p := protectParens l 0
  let pq2 := addTypename p.1
  let pq3 := restoreAll pq2 p.2 0
  trimWs (stripSymWs (collapseWs (stripComments pq3)))

/-- `graphqlUtils.compressGraphQLQuery`: empty input is returned unchanged
(the `typeof query !== 'string'` guard is vacuous in a typed embedding). -/
def compressGraphQLQuery (query : String) : String :=
  if query = "" then query
  else String.mk (compressChars query.data)

/-- `graphqlUtils.isUrlTooLong(url, maxLength)`: pure length comparison
(the source defaults `maxLength` to 8192 at the call site). -/
def isUrlTooLong (url : String) (maxLength : Nat) : Bool :=
  url.length > maxLength

/-- Lowercase hex digit. -/
def hexDigitLower (n : Nat) : Char :=
  if n < 10 then Char.ofNat ('0'.toNat + n) else Char.ofNat ('a'.toNat + n - 10)

/-- Uppercase hex digit (percent-encoding uses uppercase). -/
def hexDigitUpper (n : Nat) : Char :=
  if n < 10 then Char.ofNat ('0'.toNat + n) else Char.ofNat ('A'.toNat + n - 10)

/-- JSON string escaping as performed by `JSON.stringify`. -/
def escapeJsonChar (c : Char) : List Char :=
  if c = '"' then ['\\', '"']
  else if c = '\\' then ['\\', '\\']
  else if c = '\x08' then ['\\', 'b']
  else if c = '\x0c' then ['\\', 'f']
  else if c = '\n' then ['\\', 'n']
  else if c = '\x0d' then ['\\', 'r']
  else if c = '\t' then ['\\', 't']
  else if c.toNat < 0x20 then
    ['\\', 'u', '0', '0', hexDigitLower (c.toNat / 16), hexDigitLower (c.toNat % 16)]
  else [c]

/-- Escape a whole string body for JSON output. -/
def escapeJsonStr : List Char → List Char
  | [] => []
  | c :: rest => escapeJsonChar c ++ escapeJsonStr rest

mutual

/-- `JSON.stringify` on the modelled JSON values (number formatting is
mantissa/exponent-based; undefined-dropping and cycles do not arise in the
model). -/
def stringifyJson : Json → String
  | Json.null => "null"
  | Json.bool true => "true"
  | Json.bool false => "false"
  | Json.num m e => if e = 0 then toString m else toString m ++ "e" ++ toString e
  | Json.str s => "\"" ++ String.mk (escapeJsonStr s.data) ++ "\""
  | Json.arr l => "[" ++ stringifyArr l ++ "]"
  | Json.obj fs => "\x7b" ++ stringifyObj fs ++ "\x7d"

/-- Comma-joined serialization of array elements. -/
def stringifyArr : List Json → String
  | [] => ""
  | [x] => stringifyJson x
  | x :: y :: rest => stringifyJson x ++ "," ++ stringifyArr (y :: rest)

/-- Comma-joined serialization of object members. -/
def stringifyObj : List (String × Json) → String
  | [] => ""
  | [(k, v)] => "\"" ++ String.mk (escapeJsonStr k.data) ++ "\":" ++ stringifyJson v
  | (k, v) :: f :: rest =>
      "\"" ++ String.mk (escapeJsonStr k.data) ++ "\":" ++ stringifyJson v ++ "," ++
        stringifyObj (f :: rest)

end

/-- `graphqlUtils.safeJSONStringify(obj)`: `'\x7b\x7d'` for `null`/`undefined`,
the serialized form otherwise (the serialization try/catch cannot fire in
the model: serialization is total on finite values). -/
def safeJSONStringify (obj : Option Json) : String :=
  match obj with
  | none => "\x7b\x7d"
  | some Json.null => "\x7b\x7d"
  | some j => stringifyJson j

/-- UTF-8 bytes of a unicode scalar value. -/
def utf8Bytes (n : Nat) : List Nat :=
  if n < 0x80 then [n]
  else if n < 0x800 then [0xc0 + n / 64, 0x80 + n % 64]
  else if n < 0x10000 then [0xe0 + n / 4096, 0x80 + (n / 64) % 64, 0x80 + n % 64]
  else [0xf0 + n / 262144, 0x80 + (n / 4096) % 64, 0x80 + (n / 64) % 64, 0x80 + n % 64]

/-- The characters `encodeURIComponent` leaves unescaped. -/
def isUnreservedURI (c : Char) : Bool :=
  ('A' ≤ c && c ≤ 'Z') || ('a' ≤ c && c ≤ 'z') || ('0' ≤ c && c ≤ '9') ||
  c = '-' || c = '_' || c = '.' || c = '!' || c = '~' || c = '*' || c = '\'' ||
  c = '(' || c = ')'

/-- Percent-encode a byte list with uppercase hex. -/
def percentBytes : List Nat → List Char
  | [] => []
  | b :: rest => '%' :: hexDigitUpper (b / 16) :: hexDigitUpper (b % 16) :: percentBytes rest

/-- `encodeURIComponent` on character lists (every `Char` is a scalar
value, so the URIError path for lone surrogates cannot arise). -/
def encodeURIChars : List Char → List Char
  | [] => []
  | c :: rest =>
      (if isUnreservedURI c then [c] else percentBytes (utf8Bytes c.toNat)) ++
        encodeURIChars rest

/-- `encodeURIComponent` on strings. -/
def encodeURIComponent (s : String) : String :=
  String.mk (encodeURIChars s.data)

/-- Number of positions of `l` at which the pattern `p` occurs as a
contiguous substring. -/
def countOcc (p : List Char) : List Char → Nat
  | [] => 0
  | c :: rest => (if p.isPrefixOf (c :: rest) then 1 else 0) + countOcc p rest

/-- The typename-selection token inserted by the compressor. -/
def typenameTok : List Char := "__typename".data

/-- The fixed prefix shared by all placeholders. -/
def ppTok : List Char := "__PROTECTED_PARAM".data

/-- Brace-matching scanner: `d` is the current nesting depth. -/
def balancedBracesGo : Nat → List Char → Bool
  | d, [] => d = 0
  | d, c :: rest =>
      if c = '\x7b' then balancedBracesGo (d + 1) rest
      else if c = '\x7d' then
        match d with
        | 0 => false
        | d' + 1 => balancedBracesGo d' rest
      else balancedBracesGo d rest

/-- Whether the braces of a string are balanced. -/
def balancedBraces (l : List Char) : Bool :=
  balancedBracesGo 0 l

/-- Closing braces not inside a parenthesis-delimited group, mirroring the
single-level `\([^)]*\)` protection: while inside an open group, `some k`
counts the braces seen so far in it — they are discarded if the group
closes and counted if it never does. -/
def bracesOutsideParensGo : Option Nat → List Char → Nat
  | none, [] => 0
  | some k, [] => k
  | none, c :: rest =>
      if c = '(' then bracesOutsideParensGo (some 0) rest
      else (if c = '\x7d' then 1 else 0) + bracesOutsideParensGo none rest
  | some k, c :: rest =>
      if c = ')' then bracesOutsideParensGo none rest
      else bracesOutsideParensGo (some (k + (if c = '\x7d' then 1 else 0))) rest

/-- Closing braces of a query that are not inside a parenthesis group. -/
def bracesOutsideParens (l : List Char) : Nat :=
  bracesOutsideParensGo none l

/-- No two adjacent whitespace characters. -/
def wsIsolated : List Char → Bool
  | a :: b :: rest => (!(isWsJS a && isWsJS b)) && wsIsolated (b :: rest)
  | _ => true

/-- No whitespace character immediately adjacent to one of `\x7b \x7d ( ) , :`. -/
def noWsAdj : List Char → Bool
  | a :: b :: rest =>
      (!(isWsJS a && isSymChar b)) && (!(isSymChar a && isWsJS b)) && noWsAdj (b :: rest)
  | _ => true

/-- `placeholder i ++ y_i ++ placeholder (i+1) ++ y_(i+1) ++ ...`: the shape
of the protected query after the first plain fragment. -/
def phInterleave (i : Nat) : List (List Char) → List Char
  | [] => []
  | y :: rest => placeholder i ++ y ++ phInterleave (i + 1) rest

/-- `y0 ++ s_0 ++ y_1 ++ s_1 ++ ...`: stitching fragments back together
with the protected sections (also the shape of the restored query). -/
def reassemble : List Char → List (List Char) → List (List Char) → List Char
  | y0, [], _ => y0
  | y0, _ :: _, [] => y0
  | y0, s :: ss, y :: yy => y0 ++ s ++ reassemble y ss yy

/-- `s_0 ++ y_1 ++ s_1 ++ y_2 ++ ...`: the tail of the restored query after
the first plain fragment. -/
def restitch : List (List Char) → List (List Char) → List Char
  | [], _ => []
  | _ :: _, [] => []
  | s :: ss, y :: yy => s ++ y ++ restitch ss yy

/-- The `response` object optionally carried by a failure (an Axios error
response): HTTP status, status text and response body. -/
structure ErrResponse where
  status : Option Nat := none
  statusText : Option String := none
  data : Json := Json.null

/-- The `networkError` sub-object some GraphQL client errors carry. -/
structure NetworkError where
  statusCode : Option Nat := none

/-- The duck-typed failure objects inspected by `getErrorStatusCode` and by
the catch block of `interfaceCall`: any combination of the ad-hoc fields
the source reads may be present. -/
structure ErrObj where
  code : Option String := none
  message : Option String := none
  isAxiosError : Bool := false
  response : Option ErrResponse := none
  networkError : Option NetworkError := none
  statusCode : Option Nat := none

/-- JS `a || b` on an optionally-present number: absent or `0` falls
through to the default. -/
def jsOrNat (a : Option Nat) (b : Nat) : Nat :=
  match a with
  | none => b
  | some n => if n = 0 then b else n

namespace errorHandlers

/-- `errorHandlers.getErrorStatusCode(error)`: priority-ordered rules —
timeout codes 400; connection-failure codes 500; Axios error with embedded
response status; GraphQL network sub-error status; explicit `statusCode`
field; generic 500. -/
def getErrorStatusCode (error : ErrObj) : Nat :=
  if error.code = some "ECONNABORTED" || error.code = some "ERR_SOCKET_TIMEOUT" then 400
  else if error.code = some "ENOTFOUND" || error.code = some "ECONNREFUSED" then 500
  else if error.isAxiosError then
    jsOrNat (match error.response with | some r => r.status | none => none) 500
  else
    match error.networkError with
    | some ne => jsOrNat ne.statusCode 500
    | none =>
        match error.statusCode with
        | some sc => if sc = 0 then 500 else sc
        | none => 500

end errorHandlers

/-- Rendering of an optionally-present number inside a JS template literal
(`undefined` prints as the word `undefined`). -/
def optNatText : Option Nat → String
  | some n => Nat.repr n
  | none => "undefined"

/-- Rendering of an optionally-present string inside a JS template literal. -/
def optStrText : Option String → String
  | some s => s
  | none => "undefined"

/-- The message customization in the catch block of `interfaceCall`:
`error.message || 'Unknown error occurred'`, overridden for `ENOTFOUND`,
`ECONNREFUSED`, and errors carrying a response. -/
def catchMessage (error : ErrObj) : String :=
  let base := jsOrStr error.message "Unknown error occurred"
  if error.code = some "ENOTFOUND" then "Network connection failed - server not found"
  else if error.code = some "ECONNREFUSED" then "Network connection refused by server"
  else
    match error.response with
    | some r => "Server error: " ++ optNatText r.status ++ " " ++ optStrText r.statusText
    | none => base

/-- The uniform response envelope (`ApiResponse` of the source). -/
structure ApiResponse where
  code : Int
  data : Option Json := none
  statusCode : Option Nat := none
  message : Option String := none

/-- The failure envelope built by the catch block of `interfaceCall`. -/
def catchEnvelope (error : ErrObj) : ApiResponse :=
  { code := -1
    statusCode := some (errorHandlers.getErrorStatusCode error)
    message := some (catchMessage error)
    data := error.response.map (fun r => r.data) }

/-- An upstream HTTP response as observed through the pooled client:
parsed body and response headers. -/
structure Resp where
  data : Json := Json.null
  headers : Option (List (String × String)) := none

/-- `response.data = {...response?.data, cacheId: ...}`: merge the cache id
into an object body; any non-object body contributes no enumerable string
keys relevant to the claims (array/string index-key spreads are not
modelled — upstream GraphQL bodies are objects or null). -/
def withCacheId (d : Json) (cid : String) : Json :=
  match d with
  | Json.obj fs => Json.obj (setField fs "cacheId" (Json.str cid))
  | _ => Json.obj [("cacheId", Json.str cid)]

/-- HTTP method of an upstream call. -/
inductive HttpMethod where
  | get : HttpMethod
  | post : HttpMethod
deriving DecidableEq, Repr

/-- The JSON body `\x7bquery, variables\x7d` of a POST dispatch (`vars`
stands for the source's `variables`, an old Lean command name). -/
structure GraphQLBody where
  query : String
  vars : Option Json

/-- A record of one call issued through the pooled client. -/
structure UpstreamCall where
  method : HttpMethod
  url : String
  body : Option GraphQLBody := none
  headers : List (String × String)

/-- The mocked transport: what `api.get` / `api.post` resolve or reject
with.  `interfaceCall` is parameterized over it so that call counts and
methods can be asserted. -/
def Transport : Type := UpstreamCall → Except ErrObj Resp

/-- `const graphqlUrl = '/graphql'` (relative; `baseURL` is set on the pool). -/
def graphqlUrl : String := "/graphql"

/-- `interfaceCall({query, variables, headers, type})`, instrumented with
the ordered list of upstream calls it issues.  GET: compress the query,
safe-stringify the variables, URL-encode both, and fall back to a full POST
retry when the built URL is too long; POST: send `{query, variables}`.
Every failure of the transport is converted to the catch envelope. -/
def interfaceCall (api : Transport) (query : String) (vars : Option Json)
    (headers : List (String × String)) (type : HttpMethod) :
    ApiResponse × List UpstreamCall :=
  match type with
  | HttpMethod.get =>
      let compressedQuery := compressGraphQLQuery query
      let variablesStr := safeJSONStringify vars
      let encodedQuery := encodeURIComponent compressedQuery
      let encodedVariables := encodeURIComponent variablesStr
      let fullUrl := graphqlUrl ++ "?query=" ++ encodedQuery ++ "&variables=" ++ encodedVariables
      if isUrlTooLong fullUrl 8192 then
        interfaceCall api query vars headers HttpMethod.post
      else
        let call : UpstreamCall := { method := HttpMethod.get, url := fullUrl, headers := headers }
        match api call with
        | Except.ok response =>
            ({ code := 0,
               data := some (withCacheId response.data (getResponseCacheId response.headers)) },
             [call])
        | Except.error e => (catchEnvelope e, [call])
  | HttpMethod.post =>
      let call : UpstreamCall :=
        { method := HttpMethod.post, url := graphqlUrl,
          body := some { query := query, vars := vars }, headers := headers }
      match api call with
      | Except.ok response =>
          ({ code := 0,
             data := some (withCacheId response.data (getResponseCacheId response.headers)) },
           [call])
      | Except.error e => (catchEnvelope e, [call])
termination_by match type with | HttpMethod.get => 1 | HttpMethod.post => 0
decreasing_by decide

/-- The pooled client's fixed configuration (`agentkeepalive` agent plus
the axios instance settings).  Object identity of the singleton is
modelled as value equality of this record. -/
structure PoolClient where
  keepAlive : Bool
  maxSockets : Nat
  maxFreeSockets : Nat
  agentTimeout : Nat
  freeSocketTimeout : Nat
  baseURL : String
  requestTimeout : Nat
deriving DecidableEq, Repr

/-- The one-time initializer body: `axios.create` with the keep-alive agent. -/
def mkAxiosClient : PoolClient :=
  { keepAlive := true
    maxSockets := 170
    maxFreeSockets := 30
    agentTimeout := 60000
    freeSocketTimeout := 30000
    baseURL := "https://api.jeeda.net"
    requestTimeout := 60000 }

/-- One evaluation of
`global.__axiosInstance = global.__axiosInstance || (() => {...})()`:
returns the exported client, the new global state, and whether the
one-time initializer ran. -/
def ensureAxiosInstance (g : Option PoolClient) : PoolClient × Option PoolClient × Bool :=
  match g with
  | some c => (c, some c, false)
  | none => (mkAxiosClient, some mkAxiosClient, true)

/-- `n` successive accesses to the singleton starting from global state
`g`: the returned clients in order, the final global state, and how many
times the initializer ran. -/
def runPoolAccesses : Nat → Option PoolClient → List PoolClient × Option PoolClient × Nat
  | 0, g => ([], g, 0)
  | n + 1, g =>
      let r := ensureAxiosInstance g
      let rest := runPoolAccesses n r.2.1
      (r.1 :: rest.1, rest.2.1, (if r.2.2 then 1 else 0) + rest.2.2)

/-- Whether a JSON value is a JS object (`typeof x === 'object'` and not an
array / null, i.e. what the spec means by "an object"). -/
def isJsObject : Json → Bool
  | Json.obj _ => true
  | _ => false

/-- Concrete fixture: a request whose parameters arrive as the query-string
JSON `["a","b"]`. -/
def reqParamsAB : Request :=
  { cookies := [], headers := [], body := none, queryParams := some "[\"a\",\"b\"]" }

/-- Concrete fixture: a request whose parameters arrive as the query-string
JSON `[\x7b"h":"v"\x7d]` (a single-element array ending in an object). -/
def reqParamsSingleObj : Request :=
  { cookies := [], headers := [], body := none, queryParams := some "[\x7b\"h\":\"v\"\x7d]" }

/-- Concrete fixture: an upstream success response carrying the
`X-Magento-Cache-Id: xyz` header. -/
def respWithCacheHeader : Resp :=
  { data := Json.obj [("route", Json.null)], headers := some [("X-Magento-Cache-Id", "xyz")] }

/-- The POST upstream call record built by `interfaceCall`. -/
def postCall (q : String) (v : Option Json) (h : List (String × String)) : UpstreamCall :=
  { method := HttpMethod.post, url := graphqlUrl, body := some { query := q, vars := v }, headers := h }

theorem lookup_optEntry_ne (k k' : String) {v : String} {c : Bool}
    {rest : List (String × String)} (h : k' ≠ k) :
    ((optEntry c k' v) ++ rest).lookup k = rest.lookup k := by
  have hb : (k == k') = false := beq_eq_false_iff_ne.mpr (Ne.symm h)
  cases c <;> simp [optEntry, List.lookup, hb]

theorem lookup_optEntry_last (k k' : String) {v : String} {c : Bool} (h : k' ≠ k) :
    (optEntry c k' v).lookup k = none := by
  have hb : (k == k') = false := beq_eq_false_iff_ne.mpr (Ne.symm h)
  cases c <;> simp [optEntry, List.lookup, hb]

theorem lookup_optEntry_head (k v : String) (rest : List (String × String)) :
    ((optEntry true k v) ++ rest).lookup k = some v := by
  simp [optEntry, List.lookup]

theorem optEntry_false (k v : String) : optEntry false k v = [] := rfl

theorem getStore_ne_empty (req : Request) : extractRequestInfo.getStore req ≠ "" := by
  unfold extractRequestInfo.getStore jsOrStr
  cases req.headers.lookup "site-store" with
  | none => decide
  | some s =>
      by_cases hs : s = "" <;> simp [hs]

theorem lookup_setField_self (fs : List (String × Json)) (k : String) (v : Json) :
    (setField fs k v).lookup k = some v := by
  induction fs with
  | nil => simp [setField, List.lookup]
  | cons p rest ih =>
      obtain ⟨k', v'⟩ := p
      by_cases hk : k' = k
      · simp [setField, hk, List.lookup]
      · have hb : (k == k') = false := beq_eq_false_iff_ne.mpr (fun hkk => hk hkk.symm)
        simp [setField, hk, List.lookup, hb, ih]

theorem runPoolAccesses_some (n : Nat) :
    runPoolAccesses n (some mkAxiosClient) =
      (List.replicate n mkAxiosClient, some mkAxiosClient, 0) := by
  induction n with
  | zero => rfl
  | succ n ih => simp [runPoolAccesses, ensureAxiosInstance, ih, List.replicate]

/-- C5: the classifier maps `ECONNREFUSED` to 500 (and the dispatcher's
failure message is then the fixed connection-refused string) and
`ECONNABORTED` to 400 whatever other fields the error carries (the timeout
rule fires first), and concrete errors differing only in those codes get
distinct messages. -/
theorem claim_C5_classifier :
    (∀ e : ErrObj, e.code = some "ECONNREFUSED" →
      errorHandlers.getErrorStatusCode e = 500 ∧
        catchMessage e = "Network connection refused by server") ∧
    (∀ e : ErrObj, e.code = some "ECONNABORTED" →
      errorHandlers.getErrorStatusCode e = 400) ∧
    (errorHandlers.getErrorStatusCode { code := some "ECONNREFUSED", message := some "socket hang up" } = 500 ∧
     errorHandlers.getErrorStatusCode { code := some "ECONNABORTED", message := some "socket hang up" } = 400 ∧
     catchMessage { code := some "ECONNREFUSED", message := some "socket hang up" } ≠
       catchMessage { code := some "ECONNABORTED", message := some "socket hang up" }) := by
  refine ⟨?_, ?_, by decide⟩
  · intro e he
    constructor
    · unfold errorHandlers.getErrorStatusCode
      rw [he]
      simp
    · unfold catchMessage
      rw [he]
      simp
  · intro e he
    unfold errorHandlers.getErrorStatusCode
    rw [he]
    simp

/-- C5 witness: concrete errors exercising both hypotheses. -/
theorem claim_C5_classifier_witness :
    errorHandlers.getErrorStatusCode { code := some "ECONNREFUSED" } = 500 ∧
      catchMessage { code := some "ECONNREFUSED" } = "Network connection refused by server" ∧
      errorHandlers.getErrorStatusCode { code := some "ECONNABORTED" } = 400 := by
  refine ⟨(claim_C5_classifier.1 { code := some "ECONNREFUSED" } rfl).1,
    (claim_C5_classifier.1 { code := some "ECONNREFUSED" } rfl).2,
    claim_C5_classifier.2.1 { code := some "ECONNABORTED" } rfl⟩

/-- C6: the concrete header derivation for a request whose only cookie is
`vsf-customer = "tok123"` yields exactly the two-entry map, and the `store`
header is always present with the `site-store` header value defaulted to
`"default"`. -/
theorem claim_C6_derive_headers :
    (getHeaders { cookies := [("vsf-customer", "tok123")], headers := [] } [] =
      [("Authorization", "Bearer tok123"), ("store", "default")]) ∧
    (∀ req : Request, (getHeaders req []).lookup "store" =
      some (jsOrStr (req.headers.lookup "site-store") "default")) := by
  constructor
  · rfl
  · intro req
    unfold getHeaders mergeObjStr
    simp only [List.foldl, List.append_assoc]
    rw [lookup_optEntry_ne "store" "Authorization" (by decide)]
    have hs : (decide (extractRequestInfo.getStore req ≠ "")) = true :=
      decide_eq_true (getStore_ne_empty req)
    rw [hs, lookup_optEntry_head]
    rfl

/-- C10: header inclusion is decided by source-value truthiness, not key
presence — a present-but-empty `vsf-customer` / `vsf-currency` /
`X-Magento-Cache-Id` cookie leaves the corresponding derived header out
entirely. -/
theorem claim_C10_truthy_inclusion (req : Request) :
    (req.cookies.lookup "vsf-customer" = some "" →
      (getHeaders req []).lookup "Authorization" = none) ∧
    (req.cookies.lookup "vsf-currency" = some "" →
      (getHeaders req []).lookup "Content-Currency" = none) ∧
    (req.cookies.lookup "X-Magento-Cache-Id" = some "" →
      (getHeaders req []).lookup "X-Magento-Cache-Id" = none) := by
  refine ⟨?_, ?_, ?_⟩
  · intro hc
    unfold getHeaders mergeObjStr
    simp only [List.foldl, List.append_assoc]
    unfold extractRequestInfo.getCustomerToken
    rw [hc, show strTruthy (some "") = false from rfl, optEntry_false]
    simp only [List.nil_append]
    rw [lookup_optEntry_ne "Authorization" "store" (by decide),
      lookup_optEntry_ne "Authorization" "Content-Currency" (by decide),
      lookup_optEntry_ne "Authorization" "X-Magento-Cache-Id" (by decide),
      lookup_optEntry_ne "Authorization" "Correlation-ID" (by decide),
      lookup_optEntry_ne "Authorization" "Real-IP" (by decide)]
    exact lookup_optEntry_last "Authorization" "User-Agent" (by decide)
  · intro hc
    unfold getHeaders mergeObjStr
    simp only [List.foldl, List.append_assoc]
    unfold extractRequestInfo.getCurrency
    rw [hc, show strTruthy (some "") = false from rfl, optEntry_false]
    simp only [List.nil_append]
    rw [lookup_optEntry_ne "Content-Currency" "Authorization" (by decide),
      lookup_optEntry_ne "Content-Currency" "store" (by decide),
      lookup_optEntry_ne "Content-Currency" "X-Magento-Cache-Id" (by decide),
      lookup_optEntry_ne "Content-Currency" "Correlation-ID" (by decide),
      lookup_optEntry_ne "Content-Currency" "Real-IP" (by decide)]
    exact lookup_optEntry_last "Content-Currency" "User-Agent" (by decide)
  · intro hc
    unfold getHeaders mergeObjStr
    simp only [List.foldl, List.append_assoc]
    unfold extractRequestInfo.getMagentoCacheId
    rw [hc, show strTruthy (some "") = false from rfl, optEntry_false]
    simp only [List.nil_append]
    rw [lookup_optEntry_ne "X-Magento-Cache-Id" "Authorization" (by decide),
      lookup_optEntry_ne "X-Magento-Cache-Id" "store" (by decide),
      lookup_optEntry_ne "X-Magento-Cache-Id" "Content-Currency" (by decide),
      lookup_optEntry_ne "X-Magento-Cache-Id" "Correlation-ID" (by decide),
      lookup_optEntry_ne "X-Magento-Cache-Id" "Real-IP" (by decide)]
    exact lookup_optEntry_last "X-Magento-Cache-Id" "User-Agent" (by decide)

/-- C10 witness: a request whose three cookies are present but empty gets
none of the three headers. -/
theorem claim_C10_truthy_inclusion_witness :
    ((getHeaders { cookies := [("vsf-customer", ""), ("vsf-currency", ""), ("X-Magento-Cache-Id", "")], headers := [] } []).lookup "Authorization" = none) ∧
    ((getHeaders { cookies := [("vsf-customer", ""), ("vsf-currency", ""), ("X-Magento-Cache-Id", "")], headers := [] } []).lookup "Content-Currency" = none) ∧
    ((getHeaders { cookies := [("vsf-customer", ""), ("vsf-currency", ""), ("X-Magento-Cache-Id", "")], headers := [] } []).lookup "X-Magento-Cache-Id" = none) :=
  ⟨(claim_C10_truthy_inclusion _).1 (by decide),
   (claim_C10_truthy_inclusion _).2.1 (by decide),
   (claim_C10_truthy_inclusion _).2.2 (by decide)⟩

/-- C8: `getResponseCacheId` tries `x-magento-cache-id` before
`X-Magento-Cache-Id` case-sensitively, returns the first value found, and
returns `""` when neither key is present or the argument is absent. -/
theorem claim_C8_response_cache_id :
    getResponseCacheId (some [("x-magento-cache-id", "abc")]) = "abc" ∧
    getResponseCacheId (some []) = "" ∧
    getResponseCacheId none = "" ∧
    getResponseCacheId (some [("x-magento-cache-id", "a"), ("X-Magento-Cache-Id", "b")]) = "a" ∧
    getResponseCacheId (some [("X-Magento-Cache-Id", "xyz")]) = "xyz" ∧
    getResponseCacheId (some [("X-MAGENTO-CACHE-ID", "z")]) = "" ∧
    (∀ hs : List (String × String), hs.lookup "x-magento-cache-id" = none →
      hs.lookup "X-Magento-Cache-Id" = none → getResponseCacheId (some hs) = "") := by
  refine ⟨rfl, rfl, rfl, rfl, rfl, rfl, ?_⟩
  intro hs h1 h2
  simp only [getResponseCacheId]
  rw [h1, h2]
  rfl

/-- C8 witness: a header map carrying neither key yields the empty string. -/
theorem claim_C8_response_cache_id_witness :
    getResponseCacheId (some [("content-type", "application/json")]) = "" :=
  claim_C8_response_cache_id.2.2.2.2.2.2 [("content-type", "application/json")]
    (by decide) (by decide)

/-- C9: the pooled client is a process-wide singleton — re-evaluating the
guarded initializer is idempotent (same client, same state, no second
initialization), and any number of accesses from a fresh process yields the
one client every time with exactly one initialization. -/
theorem claim_C9_pool_singleton :
    (∀ g : Option PoolClient,
      ensureAxiosInstance (ensureAxiosInstance g).2.1 =
        ((ensureAxiosInstance g).1, (ensureAxiosInstance g).2.1, false)) ∧
    (∀ n : Nat, (runPoolAccesses n none).1 = List.replicate n mkAxiosClient) ∧
    (∀ n : Nat, (runPoolAccesses n none).2.2 = min n 1) := by
  refine ⟨?_, ?_, ?_⟩
  · intro g
    cases g <;> rfl
  · intro n
    cases n with
    | zero => rfl
    | succ n =>
        simp [runPoolAccesses, ensureAxiosInstance, runPoolAccesses_some, List.replicate]
  · intro n
    cases n with
    | zero => rfl
    | succ n =>
        simp [runPoolAccesses, ensureAxiosInstance, runPoolAccesses_some]

theorem withCacheId_lookup (d : Json) (cid : String) :
    ∃ fs, withCacheId d cid = Json.obj fs ∧
      fs.lookup "cacheId" = some (Json.str cid) := by
  cases d <;> simp [withCacheId, List.lookup, lookup_setField_self]

theorem interfaceCall_ok_shape (api : Transport) (q : String) (v : Option Json)
    (h : List (String × String)) (t : HttpMethod) (resp : Resp)
    (hok : ∀ c, api c = Except.ok resp) :
    (interfaceCall api q v h t).1 =
      { code := 0, data := some (withCacheId resp.data (getResponseCacheId resp.headers)) } := by
  cases t
  case get =>
    rw [interfaceCall]
    split
    · rw [interfaceCall]
      simp [hok]
    · simp [hok]
  case post =>
    rw [interfaceCall]
    simp [hok]

theorem interfaceCall_error_shape (api : Transport) (q : String) (v : Option Json)
    (h : List (String × String)) (t : HttpMethod) (e : ErrObj)
    (hfail : ∀ c, api c = Except.error e) :
    (interfaceCall api q v h t).1 = catchEnvelope e := by
  cases t
  case get =>
    rw [interfaceCall]
    split
    · rw [interfaceCall]
      simp [hfail]
    · simp [hfail]
  case post =>
    rw [interfaceCall]
    simp [hfail]

/-- C3: whatever failure the underlying HTTP call raises, in either mode,
`interfaceCall` returns the structured envelope — code `-1`, status code
from the classifier, the customized message, and the upstream error body
when the failure carries a response (absent otherwise) — instead of
propagating an exception. -/
theorem claim_C3_failure_envelope (api : Transport) (q : String) (v : Option Json)
    (h : List (String × String)) (t : HttpMethod) (e : ErrObj)
    (hfail : ∀ c, api c = Except.error e) :
    (interfaceCall api q v h t).1 =
      { code := -1
        statusCode := some (errorHandlers.getErrorStatusCode e)
        message := some (catchMessage e)
        data := e.response.map (fun r => r.data) } :=
  interfaceCall_error_shape api q v h t e hfail

/-- C3 witness: a transport rejecting with a response-carrying error. -/
theorem claim_C3_failure_envelope_witness :
    (interfaceCall
      (fun _ => Except.error
        { message := some "boom"
          isAxiosError := true
          response := some { status := some 502, statusText := some "Bad Gateway",
                             data := Json.str "oops" } })
      "query" none [] HttpMethod.post).1 =
      { code := -1
        statusCode := some 502
        message := some "Server error: 502 Bad Gateway"
        data := some (Json.str "oops") } := by
  rw [claim_C3_failure_envelope _ "query" none [] HttpMethod.post _ (fun _ => rfl)]
  rfl

/-- C4: whenever an upstream response is obtained (either mode), the
envelope has code 0 and its data carries the added string field `cacheId`
holding the upstream `X-Magento-Cache-Id` header value, the empty string
when no such header exists. -/
theorem claim_C4_cache_id_propagation (api : Transport) (q : String) (v : Option Json)
    (h : List (String × String)) (t : HttpMethod) (resp : Resp)
    (hok : ∀ c, api c = Except.ok resp) :
    ((interfaceCall api q v h t).1.code = 0 ∧
      ∃ fs, (interfaceCall api q v h t).1.data = some (Json.obj fs) ∧
        fs.lookup "cacheId" = some (Json.str (getResponseCacheId resp.headers))) ∧
    (∀ val, getResponseCacheId (some [("X-Magento-Cache-Id", val)]) = val) ∧
    (∀ hs : List (String × String), hs.lookup "x-magento-cache-id" = none →
      hs.lookup "X-Magento-Cache-Id" = none → getResponseCacheId (some hs) = "") := by
  refine ⟨?_, ?_, ?_⟩
  · rw [interfaceCall_ok_shape api q v h t resp hok]
    obtain ⟨fs, hfs, hlook⟩ := withCacheId_lookup resp.data (getResponseCacheId resp.headers)
    exact ⟨rfl, fs, congrArg some hfs, hlook⟩
  · intro val
    by_cases hval : val = "" <;>
      simp [getResponseCacheId, List.lookup, jsOrStr, hval]
  · intro hs h1 h2
    simp only [getResponseCacheId]
    rw [h1, h2]
    rfl

/-- C4 witness: a success response carrying `X-Magento-Cache-Id: xyz`
produces `data.cacheId = "xyz"` with code 0. -/
theorem claim_C4_cache_id_propagation_witness :
    (interfaceCall (fun _ => Except.ok respWithCacheHeader)
      "q" none [] HttpMethod.post).1.code = 0 ∧
      ∃ fs, (interfaceCall (fun _ => Except.ok respWithCacheHeader)
        "q" none [] HttpMethod.post).1.data = some (Json.obj fs) ∧
        fs.lookup "cacheId" =
          some (Json.str (getResponseCacheId respWithCacheHeader.headers)) :=
  (claim_C4_cache_id_propagation _ "q" none [] HttpMethod.post
    respWithCacheHeader (fun _ => rfl)).1

/-- C7 counterexample: with an empty body and query params `["a","b"]` the
last element `"b"` is selected as header overrides although it is not an
object, while for `[ {"h":"v"} ]` the last element is an object yet the
selected overrides are the empty object — both directions of the claimed
iff fail (the source tests `params.length > 1`, not objecthood). -/
theorem claim_C7_counterexample :
    requestCustomHeaders reqParamsAB = Except.ok (Json.str "b") ∧
    isJsObject (Json.str "b") = false ∧
    requestCustomHeaders reqParamsSingleObj = Except.ok (Json.obj []) ∧
    jsonParse "[\x7b\"h\":\"v\"\x7d]" =
      some (Json.arr [Json.obj [("h", Json.str "v")]]) ∧
    isJsObject (Json.obj [("h", Json.str "v")]) = true :=
  ⟨rfl, rfl, rfl, rfl, rfl⟩

/-- C7 amended: when the body is empty/absent, parameters are parsed as a
JSON array from the `params` query-string field, and the last element is
treated as the caller-supplied header overrides iff the array has more
than one element (regardless of whether that element is an object);
otherwise the empty object is used. -/
theorem claim_C7_amended (req : Request) (l : List Json)
    (hbody : isEmptyObject req.body = true)
    (hparse : jsonParse (jsOrStr req.queryParams "[]") = some (Json.arr l)) :
    requestCustomHeaders req =
      Except.ok (if 1 < l.length then (l.getLast?).getD Json.null else Json.obj []) := by
  unfold requestCustomHeaders requestParams
  rw [if_pos hbody, hparse]
  by_cases hl : 1 < l.length <;>
    simp [Except.map, selectCustomHeaders, jsLength, jsIndexLast, hl]

/-- C7 amended witness: the two-element array selects its last element. -/
theorem claim_C7_amended_witness :
    requestCustomHeaders reqParamsAB =
      Except.ok (if 1 < ([Json.str "a", Json.str "b"] : List Json).length then
        (([Json.str "a", Json.str "b"] : List Json).getLast?).getD Json.null
      else Json.obj []) :=
  claim_C7_amended reqParamsAB [Json.str "a", Json.str "b"] rfl rfl

theorem interfaceCall_post_calls (api : Transport) (q : String) (v : Option Json)
    (h : List (String × String)) :
    (interfaceCall api q v h HttpMethod.post).2 = [postCall q v h] := by
  rw [interfaceCall]
  rcases hapi : api (postCall q v h) with e | r <;>
    simp [postCall] at hapi <;> simp [hapi, postCall]

/-- C1: a GET dispatch whose built URL
`/graphql?query=<compressed-encoded>&variables=<stringified-encoded>`
exceeds 8192 characters issues exactly one upstream call, a POST carrying
the original uncompressed query, the raw variables and the same headers —
and never a GET. -/
theorem claim_C1_get_post_fallback (api : Transport) (q : String) (v : Option Json)
    (h : List (String × String))
    (hlong : 8192 < (graphqlUrl ++ "?query=" ++ encodeURIComponent (compressGraphQLQuery q) ++
      "&variables=" ++ encodeURIComponent (safeJSONStringify v)).length) :
    (interfaceCall api q v h HttpMethod.get).2 = [postCall q v h] := by
  have hcond : isUrlTooLong (graphqlUrl ++ "?query=" ++
      encodeURIComponent (compressGraphQLQuery q) ++ "&variables=" ++
      encodeURIComponent (safeJSONStringify v)) 8192 = true := by
    unfold isUrlTooLong
    exact decide_eq_true hlong
  rw [interfaceCall]
  simp only [hcond, if_true]
  exact interfaceCall_post_calls api q v h

theorem protectParensGo_replicate_a (n i : Nat) :
    protectParensGo i none (List.replicate n 'a') = (List.replicate n 'a', []) := by
  induction n generalizing i with
  | zero => rfl
  | succ n ih =>
      rw [List.replicate_succ]
      simp only [protectParensGo, if_neg (by decide : ¬ ('a' = '(')), ih]

theorem addTypename_replicate_a (n : Nat) :
    addTypename (List.replicate n 'a') = List.replicate n 'a' := by
  induction n with
  | zero => rfl
  | succ n ih =>
      rw [List.replicate_succ]
      simp only [addTypename, if_neg (by decide : ¬ ('a' = '\x7d')), ih]

theorem stripCommentsGo_replicate_a (n : Nat) :
    stripCommentsGo false (List.replicate n 'a') = List.replicate n 'a' := by
  induction n with
  | zero => rfl
  | succ n ih =>
      rw [List.replicate_succ]
      simp only [stripCommentsGo, if_neg (by decide : ¬ ('a' = '#')), ih]

theorem collapseWsGo_replicate_a (n : Nat) :
    collapseWsGo false (List.replicate n 'a') = List.replicate n 'a' := by
  induction n with
  | zero => rfl
  | succ n ih =>
      rw [List.replicate_succ]
      simp only [collapseWsGo, if_neg (by decide : ¬ (isWsJS 'a' = true)), ih]

theorem stripSymWsGo_replicate_a (n : Nat) :
    stripSymWsGo [] false (List.replicate n 'a') = List.replicate n 'a' := by
  induction n with
  | zero => rfl
  | succ n ih =>
      rw [List.replicate_succ]
      simp only [stripSymWsGo, if_neg (by decide : ¬ (isSymChar 'a' = true)),
        if_neg (by decide : ¬ (isWsJS 'a' = true)), List.nil_append, ih]

theorem dropWhile_ws_replicate_a (n : Nat) :
    (List.replicate n 'a').dropWhile isWsJS = List.replicate n 'a' := by
  cases n with
  | zero => rfl
  | succ n =>
      rw [List.replicate_succ]
      rw [List.dropWhile_cons_of_neg (by decide : ¬ (isWsJS 'a' = true))]

theorem trimWs_replicate_a (n : Nat) :
    trimWs (List.replicate n 'a') = List.replicate n 'a' := by
  unfold trimWs trimRight
  rw [dropWhile_ws_replicate_a, List.reverse_replicate, dropWhile_ws_replicate_a,
    List.reverse_replicate]

theorem compressChars_replicate_a (n : Nat) :
    compressChars (List.replicate n 'a') = List.replicate n 'a' := by
  unfold compressChars protectParens stripComments collapseWs stripSymWs
  rw [protectParensGo_replicate_a]
  dsimp only
  rw [addTypename_replicate_a]
  show trimWs (stripSymWsGo [] false (collapseWsGo false (stripCommentsGo false
    (restoreAll (List.replicate n 'a') [] 0)))) = _
  rw [show restoreAll (List.replicate n 'a') [] 0 = List.replicate n 'a' from rfl]
  rw [stripCommentsGo_replicate_a, collapseWsGo_replicate_a, stripSymWsGo_replicate_a,
    trimWs_replicate_a]

theorem encodeURIChars_replicate_a (n : Nat) :
    encodeURIChars (List.replicate n 'a') = List.replicate n 'a' := by
  induction n with
  | zero => rfl
  | succ n ih =>
      rw [List.replicate_succ]
      simp only [encodeURIChars, if_pos (by decide : isUnreservedURI 'a' = true), ih]
      rfl

theorem compressGraphQLQuery_replicate_a :
    compressGraphQLQuery (String.mk (List.replicate 8200 'a')) =
      String.mk (List.replicate 8200 'a') := by
  unfold compressGraphQLQuery
  rw [if_neg ?_]
  · show String.mk (compressChars (List.replicate 8200 'a')) = _
    rw [compressChars_replicate_a]
  · intro hcontra
    have h : (List.replicate 8200 'a').length = ([] : List Char).length :=
      congrArg (fun s => s.data.length) hcontra
    rw [List.length_replicate, List.length_nil] at h
    exact absurd h (by decide)

/-- C1 witness: an 8200-character query (no variables) builds an 8232-long
URL; the dispatch performs the single POST fallback. -/
theorem claim_C1_get_post_fallback_witness :
    (interfaceCall (fun _ => Except.ok {}) (String.mk (List.replicate 8200 'a'))
      none [] HttpMethod.get).2 =
      [{ method := HttpMethod.post, url := graphqlUrl,
         body := some { query := String.mk (List.replicate 8200 'a'), vars := none },
         headers := [] }] := by
  refine claim_C1_get_post_fallback (fun _ => Except.ok {})
    (String.mk (List.replicate 8200 'a')) none [] ?_
  rw [compressGraphQLQuery_replicate_a]
  show 8192 < (graphqlUrl ++ "?query=" ++
    String.mk (encodeURIChars (List.replicate 8200 'a')) ++ "&variables=" ++
    encodeURIComponent (safeJSONStringify none)).length
  rw [encodeURIChars_replicate_a]
  have h2 : (encodeURIComponent (safeJSONStringify none)).length = 6 := by decide
  have h3 : graphqlUrl.length = 8 := by decide
  have h4 : "?query=".length = 7 := by decide
  have h5 : "&variables=".length = 11 := by decide
  have h6 : (String.mk (List.replicate 8200 'a')).length = 8200 := by
    rw [show (String.mk (List.replicate 8200 'a')).length =
      (List.replicate 8200 'a').length from rfl, List.length_replicate]
  simp only [String.length_append, h2, h3, h4, h5, h6]
  norm_num

theorem isPrefixOf_mono {p x b : List Char} (h : p.isPrefixOf x = true) :
    p.isPrefixOf (x ++ b) = true := by
  rw [List.isPrefixOf_iff_prefix] at h ⊢
  exact h.trans (List.prefix_append x b)

theorem isPrefixOf_length_le {p x : List Char} (h : p.isPrefixOf x = true) :
    p.length ≤ x.length :=
  (List.isPrefixOf_iff_prefix.mp h).length_le

theorem isPrefixOf_of_append {p x b : List Char} (hle : p.length ≤ x.length)
    (h : p.isPrefixOf (x ++ b) = true) : p.isPrefixOf x = true := by
  rw [List.isPrefixOf_iff_prefix] at h ⊢
  exact List.prefix_of_prefix_length_le h (List.prefix_append x b) hle

theorem isPrefixOf_append_split {p x b : List Char} (hlt : x.length < p.length)
    (h : p.isPrefixOf (x ++ b) = true) :
    x <+: p ∧ (p.drop x.length).isPrefixOf b = true := by
  rw [List.isPrefixOf_iff_prefix] at h
  have hx : x <+: p :=
    List.prefix_of_prefix_length_le (List.prefix_append x b) h (le_of_lt hlt)
  refine ⟨hx, ?_⟩
  obtain ⟨p2, hp2⟩ := hx
  obtain ⟨t, ht⟩ := h
  have hdrop : p.drop x.length = p2 := by
    rw [← hp2, List.drop_left]
  rw [hdrop, List.isPrefixOf_iff_prefix]
  refine ⟨t, ?_⟩
  have hxb : x ++ b = x ++ (p2 ++ t) := by
    rw [← List.append_assoc, hp2, ht]
  exact (List.append_cancel_left hxb).symm

theorem countOcc_nil (p : List Char) : countOcc p [] = 0 := rfl

theorem countOcc_cons (p : List Char) (c : Char) (rest : List Char) :
    countOcc p (c :: rest) =
      (if p.isPrefixOf (c :: rest) then 1 else 0) + countOcc p rest := rfl

theorem countOcc_append_le_left (p a b : List Char) :
    countOcc p a ≤ countOcc p (a ++ b) := by
  induction a with
  | nil => simp [countOcc]
  | cons c a' ih =>
      rw [List.cons_append, countOcc_cons, countOcc_cons]
      refine Nat.add_le_add ?_ ih
      by_cases hpre : p.isPrefixOf (c :: a') = true
      · rw [if_pos hpre, if_pos (by rw [← List.cons_append]; exact isPrefixOf_mono hpre)]
      · rw [if_neg hpre]
        exact Nat.zero_le _

theorem countOcc_append_le_right (p a b : List Char) :
    countOcc p b ≤ countOcc p (a ++ b) := by
  induction a with
  | nil => simp
  | cons c a' ih =>
      rw [List.cons_append, countOcc_cons]
      omega

theorem countOcc_zero_of_left {p a b : List Char} (h : countOcc p (a ++ b) = 0) :
    countOcc p a = 0 :=
  Nat.le_zero.mp (h ▸ countOcc_append_le_left p a b)

theorem countOcc_zero_of_right {p a b : List Char} (h : countOcc p (a ++ b) = 0) :
    countOcc p b = 0 :=
  Nat.le_zero.mp (h ▸ countOcc_append_le_right p a b)

theorem countOcc_zero_of_infix {p x y z : List Char}
    (h : countOcc p (x ++ (y ++ z)) = 0) : countOcc p y = 0 :=
  countOcc_zero_of_left (countOcc_zero_of_right h)

theorem mem_of_pat_head {p2 b : List Char} {d : Char}
    (hpre : p2.isPrefixOf b = true) (hne : p2 ≠ []) (hd : b.head? = some d) :
    d ∈ p2 := by
  obtain ⟨t, ht⟩ := List.isPrefixOf_iff_prefix.mp hpre
  cases p2 with
  | nil => exact absurd rfl hne
  | cons e p2' =>
      rw [← ht] at hd
      simp at hd
      rw [hd]
      exact List.mem_cons_self _ _

/-- Occurrence counting distributes over an append when the pattern cannot
straddle the junction: the junction is blocked when either side's boundary
character does not occur in the pattern. -/
theorem countOcc_append_sep {p : List Char} (a b : List Char)
    (hsep : (∀ c, b.head? = some c → c ∉ p) ∨ (∀ c, a.getLast? = some c → c ∉ p)) :
    countOcc p (a ++ b) = countOcc p a + countOcc p b := by
  induction a with
  | nil => simp [countOcc]
  | cons c a' ih =>
      have hsep' : (∀ c, b.head? = some c → c ∉ p) ∨
          (∀ c, a'.getLast? = some c → c ∉ p) := by
        rcases hsep with hb | ha
        · exact Or.inl hb
        · refine Or.inr ?_
          intro d hd
          refine ha d ?_
          cases a' with
          | nil => exact absurd hd (by simp)
          | cons e a'' => rw [List.getLast?_cons_cons]; exact hd
      have hrec : countOcc p (a' ++ b) = countOcc p a' + countOcc p b := ih hsep'
      rw [List.cons_append, countOcc_cons, countOcc_cons, hrec]
      have hhead : (if p.isPrefixOf (c :: (a' ++ b)) then 1 else 0) =
          (if p.isPrefixOf (c :: a') then 1 else 0) := by
        by_cases hlen : p.length ≤ (c :: a').length
        · by_cases hpre : p.isPrefixOf (c :: a') = true
          · rw [if_pos hpre,
              if_pos (show p.isPrefixOf (c :: (a' ++ b)) = true from isPrefixOf_mono hpre)]
          · rw [if_neg hpre, if_neg ?_]
            intro hbig
            exact hpre (isPrefixOf_of_append hlen
              (show p.isPrefixOf ((c :: a') ++ b) = true from hbig))
        · push_neg at hlen
          rw [if_neg (fun hsm => hlen.not_le (isPrefixOf_length_le hsm)), if_neg ?_]
          intro hbig
          obtain ⟨hxp, hrest⟩ := isPrefixOf_append_split hlen
            (show p.isPrefixOf ((c :: a') ++ b) = true from hbig)
          have hp2ne : p.drop (c :: a').length ≠ [] := by
            intro hnil
            have h1 := congrArg List.length hnil
            rw [List.length_drop] at h1
            simp only [List.length_cons, List.length_nil] at h1
            simp only [List.length_cons] at hlen
            omega
          rcases hsep with hb | ha
          · cases hbhead : b.head? with
            | none =>
                cases b with
                | nil =>
                    exact hp2ne (List.prefix_nil.mp (List.isPrefixOf_iff_prefix.mp hrest))
                | cons x xs => simp at hbhead
            | some d => exact hb d hbhead (List.drop_subset _ _ (mem_of_pat_head hrest hp2ne hbhead))
          · have hlast : (c :: a').getLast? = some ((c :: a').getLast (by simp)) :=
              List.getLast?_eq_getLast _ _
            exact ha _ hlast (hxp.subset (List.getLast_mem _))
      rw [hhead]
      omega

theorem countOcc_zero_of_disjoint {p : List Char} (hpne : p ≠ []) :
    ∀ {l : List Char}, (∀ c ∈ l, c ∉ p) → countOcc p l = 0 := by
  intro l
  induction l with
  | nil => intro _; rfl
  | cons c rest ih =>
      intro h
      have hnp : ¬ p.isPrefixOf (c :: rest) = true := by
        intro hpre
        cases p with
        | nil => exact hpne rfl
        | cons ph pt =>
            simp only [List.isPrefixOf, Bool.and_eq_true, beq_iff_eq] at hpre
            exact h c (List.mem_cons_self _ _) (hpre.1 ▸ List.mem_cons_self _ _)
      rw [countOcc_cons, ih (fun d hd => h d (List.mem_cons_of_mem c hd)),
        if_neg hnp]

theorem countOcc_singleton_head {p : List Char} {c : Char} {rest : List Char}
    (hp : ∀ d ∈ p, d ≠ c) (hpne : p ≠ []) :
    countOcc p (c :: rest) = countOcc p rest := by
  have hnp : ¬ p.isPrefixOf (c :: rest) = true := by
    intro hpre
    cases p with
    | nil => exact hpne rfl
    | cons ph pt =>
        simp only [List.isPrefixOf, Bool.and_eq_true, beq_iff_eq] at hpre
        exact hp ph (List.mem_cons_self _ _) hpre.1
  rw [countOcc_cons, if_neg hnp, Nat.zero_add]

theorem tok_chars : ∀ c ∈ typenameTok, ¬ isWsJS c = true ∧ ¬ isSymChar c = true ∧
    c ≠ '#' ∧ c ≠ '(' ∧ c ≠ ')' ∧ c ≠ '\x7d' ∧ c ≠ ' ' := by decide

theorem ppTok_chars : ∀ c ∈ ppTok, ¬ isWsJS c = true ∧ ¬ isSymChar c = true ∧
    c ≠ '#' ∧ c ≠ '(' ∧ c ≠ ')' ∧ c ≠ '\x7d' ∧ c ≠ ' ' := by decide

theorem ppTok_no_border : ∀ t, t < 17 → 0 < t →
    ppTok.drop t ≠ ppTok.take (17 - t) := by decide

theorem stripCommentsGo_no_hash (l : List Char) :
    ∀ (mode : Bool), '#' ∉ stripCommentsGo mode l := by
  induction l with
  | nil => intro mode; simp [stripCommentsGo]
  | cons c rest ih =>
      intro mode
      cases mode
      · by_cases hc : c = '#'
        · rw [show stripCommentsGo false (c :: rest) = stripCommentsGo true rest by
            simp [stripCommentsGo, hc]]
          exact ih true
        · rw [show stripCommentsGo false (c :: rest) = c :: stripCommentsGo false rest by
            simp [stripCommentsGo, hc]]
          intro hmem
          rcases List.mem_cons.mp hmem with h | h
          · exact hc h.symm
          · exact ih false h
      · by_cases hc : isLineTerm c = true
        · rw [show stripCommentsGo true (c :: rest) = c :: stripCommentsGo false rest by
            simp [stripCommentsGo, hc]]
          intro hmem
          rcases List.mem_cons.mp hmem with h | h
          · rw [← h] at hc
            simp [isLineTerm] at hc
          · exact ih false h
        · rw [show stripCommentsGo true (c :: rest) = stripCommentsGo true rest by
            simp [stripCommentsGo, hc]]
          exact ih true

theorem mem_collapseWsGo {c : Char} :
    ∀ (l : List Char) (mode : Bool), c ∈ collapseWsGo mode l → c = ' ' ∨ c ∈ l := by
  intro l
  induction l with
  | nil => intro mode h; simp [collapseWsGo] at h
  | cons d rest ih =>
      intro mode h
      by_cases hd : isWsJS d = true
      · cases mode
        · rw [show collapseWsGo false (d :: rest) = ' ' :: collapseWsGo true rest by
            simp [collapseWsGo, hd]] at h
          rcases List.mem_cons.mp h with h1 | h1
          · exact Or.inl h1
          · rcases ih true h1 with h2 | h2
            · exact Or.inl h2
            · exact Or.inr (List.mem_cons_of_mem d h2)
        · rw [show collapseWsGo true (d :: rest) = collapseWsGo true rest by
            simp [collapseWsGo, hd]] at h
          rcases ih true h with h2 | h2
          · exact Or.inl h2
          · exact Or.inr (List.mem_cons_of_mem d h2)
      · rw [show collapseWsGo mode (d :: rest) = d :: collapseWsGo false rest by
          cases mode <;> simp [collapseWsGo, hd]] at h
        rcases List.mem_cons.mp h with h1 | h1
        · exact Or.inr (h1 ▸ List.mem_cons_self d rest)
        · rcases ih false h1 with h2 | h2
          · exact Or.inl h2
          · exact Or.inr (List.mem_cons_of_mem d h2)

theorem mem_stripSymWsGo {c : Char} :
    ∀ (l : List Char) (pending : List Char) (skip : Bool),
      c ∈ stripSymWsGo pending skip l → c ∈ pending ∨ c ∈ l := by
  intro l
  induction l with
  | nil =>
      intro pending skip h
      rw [show stripSymWsGo pending skip [] = pending from rfl] at h
      exact Or.inl h
  | cons d rest ih =>
      intro pending skip h
      by_cases hsym : isSymChar d = true
      · rw [show stripSymWsGo pending skip (d :: rest) =
            d :: stripSymWsGo [] true rest by simp [stripSymWsGo, hsym]] at h
        rcases List.mem_cons.mp h with h1 | h1
        · exact Or.inr (h1 ▸ List.mem_cons_self d rest)
        · rcases ih [] true h1 with h2 | h2
          · simp at h2
          · exact Or.inr (List.mem_cons_of_mem d h2)
      · by_cases hws : isWsJS d = true
        · cases skip
          · rw [show stripSymWsGo pending false (d :: rest) =
                stripSymWsGo (pending ++ [d]) false rest by
                simp [stripSymWsGo, hsym, hws]] at h
            rcases ih (pending ++ [d]) false h with h2 | h2
            · rcases List.mem_append.mp h2 with h3 | h3
              · exact Or.inl h3
              · simp at h3
                exact Or.inr (h3 ▸ List.mem_cons_self d rest)
            · exact Or.inr (List.mem_cons_of_mem d h2)
          · rw [show stripSymWsGo pending true (d :: rest) =
                stripSymWsGo pending true rest by simp [stripSymWsGo, hsym, hws]] at h
            rcases ih pending true h with h2 | h2
            · exact Or.inl h2
            · exact Or.inr (List.mem_cons_of_mem d h2)
        · rw [show stripSymWsGo pending skip (d :: rest) =
              pending ++ d :: stripSymWsGo [] false rest by
              simp [stripSymWsGo, hsym, hws]] at h
          rcases List.mem_append.mp h with h1 | h1
          · exact Or.inl h1
          · rcases List.mem_cons.mp h1 with h2 | h2
            · exact Or.inr (h2 ▸ List.mem_cons_self d rest)
            · rcases ih [] false h2 with h3 | h3
              · simp at h3
              · exact Or.inr (List.mem_cons_of_mem d h3)

theorem mem_trimWs {c : Char} {l : List Char} (h : c ∈ trimWs l) : c ∈ l := by
  unfold trimWs trimRight at h
  rw [List.mem_reverse] at h
  have h1 := (List.dropWhile_suffix isWsJS).subset h
  rw [List.mem_reverse] at h1
  exact (List.dropWhile_suffix isWsJS).subset h1

/-- Conjunct "no `#`" of C2: the compressed output of any query contains no
`#` character (comment stripping removes every one, and no later pass
introduces one). -/
theorem compressChars_no_hash (l : List Char) : '#' ∉ compressChars l := by
  intro h
  replace h := mem_trimWs (show '#' ∈ trimWs (stripSymWs (collapseWs (stripComments
    (restoreAll (addTypename (protectParensGo 0 none l).1)
      (protectParensGo 0 none l).2 0)))) from h)
  rcases mem_stripSymWsGo _ [] false h with h1 | h1
  · simp at h1
  rcases mem_collapseWsGo _ false h1 with h2 | h2
  · exact absurd h2 (by decide)
  exact stripCommentsGo_no_hash _ false h2

theorem sym_not_ws {c : Char} (h : isSymChar c = true) : isWsJS c = false := by
  simp only [isSymChar, Bool.or_eq_true, decide_eq_true_eq] at h
  rcases h with ((((h | h) | h) | h) | h) | h <;> subst h <;> decide

theorem ws_not_sym {c : Char} (h : isWsJS c = true) : isSymChar c = false := by
  cases hs : isSymChar c
  · rfl
  · rw [sym_not_ws hs] at h
    exact absurd h (by decide)

theorem wsIsolated_tail {x : Char} {xs : List Char} (h : wsIsolated (x :: xs) = true) :
    wsIsolated xs = true := by
  cases xs with
  | nil => rfl
  | cons y ys =>
      simp only [wsIsolated, Bool.and_eq_true] at h
      exact h.2

theorem wsIsolated_pair {x y : Char} {ys : List Char}
    (h : wsIsolated (x :: y :: ys) = true) : (isWsJS x && isWsJS y) = false := by
  simp only [wsIsolated, Bool.and_eq_true, Bool.not_eq_true'] at h
  exact h.1

theorem wsIsolated_cons_of {x : Char} {xs : List Char} (hxs : wsIsolated xs = true)
    (hpair : ∀ d, xs.head? = some d → (isWsJS x && isWsJS d) = false) :
    wsIsolated (x :: xs) = true := by
  cases xs with
  | nil => rfl
  | cons y ys =>
      simp only [wsIsolated, Bool.and_eq_true, Bool.not_eq_true']
      exact ⟨hpair y rfl, hxs⟩

theorem collapseWsGo_head_true :
    ∀ (l : List Char) (d : Char), (collapseWsGo true l).head? = some d →
      isWsJS d = false := by
  intro l
  induction l with
  | nil => intro d h; simp [collapseWsGo] at h
  | cons c rest ih =>
      intro d h
      by_cases hc : isWsJS c = true
      · rw [show collapseWsGo true (c :: rest) = collapseWsGo true rest by
          simp [collapseWsGo, hc]] at h
        exact ih d h
      · rw [show collapseWsGo true (c :: rest) = c :: collapseWsGo false rest by
          simp [collapseWsGo, hc]] at h
        simp only [List.head?_cons, Option.some.injEq] at h
        rw [← h]
        exact Bool.eq_false_iff.mpr hc

theorem wsIsolated_collapseWsGo :
    ∀ (l : List Char) (mode : Bool), wsIsolated (collapseWsGo mode l) = true := by
  intro l
  induction l with
  | nil => intro mode; cases mode <;> rfl
  | cons c rest ih =>
      intro mode
      by_cases hc : isWsJS c = true
      · cases mode
        · rw [show collapseWsGo false (c :: rest) = ' ' :: collapseWsGo true rest by
            simp [collapseWsGo, hc]]
          refine wsIsolated_cons_of (ih true) ?_
          intro d hd
          rw [collapseWsGo_head_true rest d hd, Bool.and_false]
        · rw [show collapseWsGo true (c :: rest) = collapseWsGo true rest by
            simp [collapseWsGo, hc]]
          exact ih true
      · rw [show collapseWsGo mode (c :: rest) = c :: collapseWsGo false rest by
          cases mode <;> simp [collapseWsGo, hc]]
        refine wsIsolated_cons_of (ih false) ?_
        intro d _
        rw [Bool.eq_false_iff.mpr hc, Bool.false_and]

theorem noWsAdj_tail {x : Char} {xs : List Char} (h : noWsAdj (x :: xs) = true) :
    noWsAdj xs = true := by
  cases xs with
  | nil => rfl
  | cons y ys =>
      simp only [noWsAdj, Bool.and_eq_true] at h
      exact h.2

theorem noWsAdj_pair {x y : Char} {ys : List Char} (h : noWsAdj (x :: y :: ys) = true) :
    (isWsJS x && isSymChar y) = false ∧ (isSymChar x && isWsJS y) = false := by
  simp only [noWsAdj, Bool.and_eq_true, Bool.not_eq_true'] at h
  exact ⟨h.1.1, h.1.2⟩

theorem noWsAdj_cons_of {x : Char} {xs : List Char} (hxs : noWsAdj xs = true)
    (hpair : ∀ d, xs.head? = some d →
      (isWsJS x && isSymChar d) = false ∧ (isSymChar x && isWsJS d) = false) :
    noWsAdj (x :: xs) = true := by
  cases xs with
  | nil => rfl
  | cons y ys =>
      simp only [noWsAdj, Bool.and_eq_true, Bool.not_eq_true']
      exact ⟨⟨(hpair y rfl).1, (hpair y rfl).2⟩, hxs⟩

theorem stripSymWsGo_head_skip :
    ∀ (l : List Char) (d : Char), (stripSymWsGo [] true l).head? = some d →
      isWsJS d = false := by
  intro l
  induction l with
  | nil => intro d h; simp [stripSymWsGo] at h
  | cons c rest ih =>
      intro d h
      by_cases hsym : isSymChar c = true
      · rw [show stripSymWsGo [] true (c :: rest) = c :: stripSymWsGo [] true rest by
          simp [stripSymWsGo, hsym]] at h
        simp only [List.head?_cons, Option.some.injEq] at h
        rw [← h]
        exact sym_not_ws hsym
      · by_cases hws : isWsJS c = true
        · rw [show stripSymWsGo [] true (c :: rest) = stripSymWsGo [] true rest by
            simp [stripSymWsGo, hsym, hws]] at h
          exact ih d h
        · rw [show stripSymWsGo [] true (c :: rest) =
              c :: stripSymWsGo [] false rest by simp [stripSymWsGo, hsym, hws]] at h
          simp only [List.head?_cons, Option.some.injEq] at h
          rw [← h]
          exact Bool.eq_false_iff.mpr hws

theorem stripSymWsGo_head_pending :
    ∀ (l pend' : List Char) (w : Char) (skip : Bool) (d : Char),
      (stripSymWsGo (w :: pend') skip l).head? = some d →
      d = w ∨ isSymChar d = true := by
  intro l
  induction l with
  | nil =>
      intro pend' w skip d h
      rw [show stripSymWsGo (w :: pend') skip [] = w :: pend' from rfl] at h
      simp only [List.head?_cons, Option.some.injEq] at h
      exact Or.inl h.symm
  | cons c rest ih =>
      intro pend' w skip d h
      by_cases hsym : isSymChar c = true
      · rw [show stripSymWsGo (w :: pend') skip (c :: rest) =
            c :: stripSymWsGo [] true rest by simp [stripSymWsGo, hsym]] at h
        simp only [List.head?_cons, Option.some.injEq] at h
        exact Or.inr (h ▸ hsym)
      · by_cases hws : isWsJS c = true
        · cases skip
          · rw [show stripSymWsGo (w :: pend') false (c :: rest) =
                stripSymWsGo ((w :: pend') ++ [c]) false rest by
                simp [stripSymWsGo, hsym, hws]] at h
            exact ih (pend' ++ [c]) w false d h
          · rw [show stripSymWsGo (w :: pend') true (c :: rest) =
                stripSymWsGo (w :: pend') true rest by
                simp [stripSymWsGo, hsym, hws]] at h
            exact ih pend' w true d h
        · rw [show stripSymWsGo (w :: pend') skip (c :: rest) =
              (w :: pend') ++ c :: stripSymWsGo [] false rest by
              simp [stripSymWsGo, hsym, hws]] at h
          simp only [List.cons_append, List.head?_cons, Option.some.injEq] at h
          exact Or.inl h.symm

theorem noWsAdj_stripSymWsGo :
    ∀ (l pending : List Char) (skip : Bool), wsIsolated l = true →
      (pending = [] ∨ ∃ w, pending = [w] ∧ isWsJS w = true ∧
        (∀ d, l.head? = some d → isWsJS d = false)) →
      noWsAdj (stripSymWsGo pending skip l) = true := by
  intro l
  induction l with
  | nil =>
      intro pending skip _ hp
      rcases hp with rfl | ⟨w, rfl, _, _⟩
      · rfl
      · rfl
  | cons c rest ih =>
      intro pending skip hiso hp
      by_cases hsym : isSymChar c = true
      · rw [show stripSymWsGo pending skip (c :: rest) =
            c :: stripSymWsGo [] true rest by simp [stripSymWsGo, hsym]]
        refine noWsAdj_cons_of (ih [] true (wsIsolated_tail hiso) (Or.inl rfl)) ?_
        intro d hd
        have hdws := stripSymWsGo_head_skip rest d hd
        rw [sym_not_ws hsym, hdws]
        simp
      · by_cases hws : isWsJS c = true
        · have hpnil : pending = [] := by
            rcases hp with h | ⟨w, _, _, hhead⟩
            · exact h
            · exact absurd (hhead c rfl) (by rw [hws]; simp)
          subst hpnil
          cases skip
          · rw [show stripSymWsGo [] false (c :: rest) =
                stripSymWsGo [c] false rest by simp [stripSymWsGo, hsym, hws]]
            refine ih [c] false (wsIsolated_tail hiso) (Or.inr ⟨c, rfl, hws, ?_⟩)
            intro d hd
            cases rest with
            | nil => simp at hd
            | cons e rest' =>
                simp only [List.head?_cons, Option.some.injEq] at hd
                have := wsIsolated_pair hiso
                rw [hws, Bool.true_and] at this
                exact hd ▸ this
          · rw [show stripSymWsGo [] true (c :: rest) =
                stripSymWsGo [] true rest by simp [stripSymWsGo, hsym, hws]]
            exact ih [] true (wsIsolated_tail hiso) (Or.inl rfl)
        · rw [show stripSymWsGo pending skip (c :: rest) =
              pending ++ c :: stripSymWsGo [] false rest by
              simp [stripSymWsGo, hsym, hws]]
          have hinner : noWsAdj (c :: stripSymWsGo [] false rest) = true := by
            refine noWsAdj_cons_of (ih [] false (wsIsolated_tail hiso) (Or.inl rfl)) ?_
            intro d _
            rw [Bool.eq_false_iff.mpr hws, Bool.eq_false_iff.mpr hsym]
            simp
          rcases hp with rfl | ⟨w, rfl, hwws, _⟩
          · rw [List.nil_append]
            exact hinner
          · rw [List.cons_append, List.nil_append]
            refine noWsAdj_cons_of hinner ?_
            intro d hd
            simp only [List.head?_cons, Option.some.injEq] at hd
            subst hd
            rw [ws_not_sym hwws, Bool.eq_false_iff.mpr hws, Bool.eq_false_iff.mpr hsym]
            simp

theorem noWsAdj_append_right :
    ∀ (a b : List Char), noWsAdj (a ++ b) = true → noWsAdj b = true := by
  intro a
  induction a with
  | nil => intro b h; exact h
  | cons c a' ih =>
      intro b h
      exact ih b (noWsAdj_tail (show noWsAdj (c :: (a' ++ b)) = true from h))

theorem noWsAdj_append_left :
    ∀ (a b : List Char), noWsAdj (a ++ b) = true → noWsAdj a = true := by
  intro a
  induction a with
  | nil => intro b _; rfl
  | cons c a' ih =>
      intro b h
      cases a' with
      | nil => rfl
      | cons d a'' =>
          have h' : noWsAdj (c :: d :: (a'' ++ b)) = true := h
          refine noWsAdj_cons_of (ih b (noWsAdj_tail h')) ?_
          intro e he
          simp only [List.head?_cons, Option.some.injEq] at he
          subst he
          exact noWsAdj_pair h'

theorem trimRight_decomp (l : List Char) :
    ∃ r, l = trimRight l ++ r ∧ ∀ c ∈ r, isWsJS c = true := by
  refine ⟨(l.reverse.takeWhile isWsJS).reverse, ?_, ?_⟩
  · unfold trimRight
    calc l = l.reverse.reverse := (List.reverse_reverse l).symm
    _ = (l.reverse.takeWhile isWsJS ++ l.reverse.dropWhile isWsJS).reverse := by
          rw [List.takeWhile_append_dropWhile]
    _ = (l.reverse.dropWhile isWsJS).reverse ++ (l.reverse.takeWhile isWsJS).reverse := by
          rw [List.reverse_append]
  · intro c hc
    rw [List.mem_reverse] at hc
    exact List.mem_takeWhile_imp hc

theorem noWsAdj_trimWs {l : List Char} (h : noWsAdj l = true) :
    noWsAdj (trimWs l) = true := by
  unfold trimWs
  have h1 : noWsAdj (l.dropWhile isWsJS) = true := by
    have hdecomp := List.takeWhile_append_dropWhile isWsJS l
    exact noWsAdj_append_right _ _ (hdecomp.symm ▸ h)
  obtain ⟨r, hr, _⟩ := trimRight_decomp (l.dropWhile isWsJS)
  exact noWsAdj_append_left _ _ (hr ▸ h1)

/-- Conjunct "no whitespace adjacent to a symbol" of C2, for every input. -/
theorem compressChars_noWsAdj (l : List Char) :
    noWsAdj (compressChars l) = true :=
  noWsAdj_trimWs
    (noWsAdj_stripSymWsGo _ [] false (wsIsolated_collapseWsGo _ false) (Or.inl rfl))

theorem digit_char_bounds : ∀ k, k < 10 →
    '0' ≤ Char.ofNat (48 + k) ∧ Char.ofNat (48 + k) ≤ '9' := by decide

theorem natToDigitsGo_mem :
    ∀ (fuel n : Nat) (acc : List Char) (c : Char), c ∈ natToDigitsGo fuel n acc →
      c ∈ acc ∨ ('0' ≤ c ∧ c ≤ '9') := by
  intro fuel
  induction fuel with
  | zero => intro n acc c h; exact Or.inl h
  | succ fuel ih =>
      intro n acc c h
      simp only [natToDigitsGo] at h
      by_cases hn : n < 10
      · rw [if_pos hn] at h
        rcases List.mem_cons.mp h with h1 | h1
        · exact Or.inr (h1 ▸ digit_char_bounds (n % 10) (Nat.mod_lt n (by omega)))
        · exact Or.inl h1
      · rw [if_neg hn] at h
        rcases ih (n / 10) _ c h with h1 | h1
        · rcases List.mem_cons.mp h1 with h2 | h2
          · exact Or.inr (h2 ▸ digit_char_bounds (n % 10) (Nat.mod_lt n (by omega)))
          · exact Or.inl h2
        · exact Or.inr h1

theorem mem_natToDigits {n : Nat} {c : Char} (h : c ∈ natToDigits n) :
    '0' ≤ c ∧ c ≤ '9' := by
  rcases natToDigitsGo_mem (n + 1) n [] c h with h1 | h1
  · simp at h1
  · exact h1

theorem placeholder_no_brace (i : Nat) : '\x7d' ∉ placeholder i := by
  intro h
  unfold placeholder at h
  rcases List.mem_append.mp h with h1 | h1
  · rcases List.mem_append.mp h1 with h2 | h2
    · exact absurd h2 (by decide)
    · exact absurd (mem_natToDigits h2) (by decide)
  · exact absurd h1 (by decide)

theorem placeholder_no_paren (i : Nat) : '(' ∉ placeholder i ∧ ')' ∉ placeholder i := by
  constructor <;> intro h <;> unfold placeholder at h <;>
    rcases List.mem_append.mp h with h1 | h1
  · rcases List.mem_append.mp h1 with h2 | h2
    · exact absurd h2 (by decide)
    · exact absurd (mem_natToDigits h2) (by decide)
  · exact absurd h1 (by decide)
  · rcases List.mem_append.mp h1 with h2 | h2
    · exact absurd h2 (by decide)
    · exact absurd (mem_natToDigits h2) (by decide)
  · exact absurd h1 (by decide)

theorem ppTok_isPrefixOf_placeholder (i : Nat) :
    ppTok.isPrefixOf (placeholder i) = true := by
  rw [List.isPrefixOf_iff_prefix]
  unfold placeholder
  rw [show "__PROTECTED_PARAM_".data = ppTok ++ ['_'] from by decide]
  rw [List.append_assoc]
  exact List.prefix_append _ _

theorem ppTok_length : ppTok.length = 17 := by decide

theorem addTypename_append (a b : List Char) :
    addTypename (a ++ b) = addTypename a ++ addTypename b := by
  induction a with
  | nil => rfl
  | cons c a' ih =>
      by_cases hc : c = '\x7d'
      · simp [addTypename, hc, ih]
      · simp [addTypename, hc, ih]

theorem addTypename_id_of_no_brace : ∀ {l : List Char}, '\x7d' ∉ l → addTypename l = l := by
  intro l
  induction l with
  | nil => intro _; rfl
  | cons c rest ih =>
      intro h
      have hc : ¬ c = '\x7d' := fun hcc => h (hcc ▸ List.mem_cons_self c rest)
      simp only [addTypename, if_neg hc]
      rw [ih (fun hm => h (List.mem_cons_of_mem c hm))]

theorem mem_addTypename {c : Char} :
    ∀ {l : List Char}, c ∈ addTypename l → c ∈ l ∨ c ∈ typenameBlock := by
  intro l
  induction l with
  | nil => intro h; simp [addTypename] at h
  | cons d rest ih =>
      intro h
      by_cases hd : d = '\x7d'
      · rw [show addTypename (d :: rest) = typenameBlock ++ addTypename rest by
          simp [addTypename, hd]] at h
        rcases List.mem_append.mp h with h1 | h1
        · exact Or.inr h1
        · rcases ih h1 with h2 | h2
          · exact Or.inl (List.mem_cons_of_mem d h2)
          · exact Or.inr h2
      · rw [show addTypename (d :: rest) = d :: addTypename rest by
          simp [addTypename, hd]] at h
        rcases List.mem_cons.mp h with h1 | h1
        · exact Or.inl (h1 ▸ List.mem_cons_self d rest)
        · rcases ih h1 with h2 | h2
          · exact Or.inl (List.mem_cons_of_mem d h2)
          · exact Or.inr h2

theorem typenameBlock_getLast : typenameBlock.getLast? = some '\x7d' := by decide

theorem dropWhile_head_prop {p : Char → Bool} :
    ∀ {l : List Char} {c : Char} {v : List Char},
      l.dropWhile p = c :: v → p c = false := by
  intro l
  induction l with
  | nil => intro c v h; simp [List.dropWhile] at h
  | cons d rest ih =>
      intro c v h
      rw [List.dropWhile_cons] at h
      by_cases hd : p d = true
      · rw [if_pos hd] at h
        exact ih h
      · rw [if_neg hd] at h
        injection h with h1 _
        subst h1
        exact Bool.eq_false_iff.mpr hd

/-- Occurrence count through step 2: every closing brace contributes the
occurrences inside one inserted block, for any pattern free of the block's
boundary characters. -/
theorem countOcc_addTypename {p : List Char} (hpne : p ≠ [])
    (hsp : ' ' ∉ p) (hbr : '\x7d' ∉ p) :
    ∀ (l : List Char), countOcc p (addTypename l) =
      countOcc p l + (List.count '\x7d' l) * countOcc p typenameBlock := by
  intro l
  generalize hn : l.length = n
  induction n using Nat.strong_induction_on generalizing l with
  | _ n ih =>
      subst hn
      rcases hdrop : l.dropWhile (fun c => !(c = '\x7d' : Bool)) with _ | ⟨c, v⟩
      · have hnb : '\x7d' ∉ l := by
          intro hmem
          have := List.dropWhile_eq_nil_iff.mp hdrop _ hmem
          simp at this
        rw [addTypename_id_of_no_brace hnb,
          List.count_eq_zero.mpr hnb, Nat.zero_mul, Nat.add_zero]
      · have hsplit := List.takeWhile_append_dropWhile
          (fun c => !(c = '\x7d' : Bool)) l
        set u := l.takeWhile (fun c => !(c = '\x7d' : Bool)) with hu
        have hc : c = '\x7d' := by
          have := dropWhile_head_prop hdrop
          simpa using this
        subst hc
        have hunb : '\x7d' ∉ u := by
          intro hm
          have := List.mem_takeWhile_imp hm
          simp at this
        have hl : l = u ++ '\x7d' :: v := by rw [← hdrop, hsplit]
        have hvlen : v.length < l.length := by
          rw [hl, List.length_append, List.length_cons]
          omega
        have hv := ih v.length hvlen v rfl
        have hbne : ∀ d ∈ p, d ≠ '\x7d' := by
          intro d hdp hdc
          exact hbr (hdc ▸ hdp)
        have hj1 : ∀ c, (typenameBlock ++ addTypename v).head? = some c → c ∉ p := by
          intro c hd hdp
          rw [show typenameBlock = ' ' :: "__typename \x7d".data from by decide,
            List.cons_append, List.head?_cons] at hd
          injection hd with hd
          exact hsp (hd ▸ hdp)
        have hj2 : ∀ c, typenameBlock.getLast? = some c → c ∉ p := by
          intro c hd hdp
          rw [typenameBlock_getLast] at hd
          injection hd with hd
          exact hbr (hd ▸ hdp)
        have hj3 : ∀ c, ('\x7d' :: v).head? = some c → c ∉ p := by
          intro c hd hdp
          rw [List.head?_cons] at hd
          injection hd with hd
          exact hbr (hd ▸ hdp)
        rw [hl, addTypename_append, addTypename_id_of_no_brace hunb,
          show addTypename ('\x7d' :: v) = typenameBlock ++ addTypename v by
            simp [addTypename],
          countOcc_append_sep u _ (Or.inl hj1),
          countOcc_append_sep typenameBlock _ (Or.inr hj2),
          countOcc_append_sep u _ (Or.inl hj3),
          countOcc_singleton_head hbne hpne,
          List.count_append, List.count_eq_zero.mpr hunb, hv]
        simp only [List.count_cons_self]
        ring

theorem countOcc_tok_addTypename (l : List Char) :
    countOcc typenameTok (addTypename l) =
      countOcc typenameTok l + List.count '\x7d' l := by
  have h := @countOcc_addTypename typenameTok (by decide) (by decide) (by decide) l
  rw [show countOcc typenameTok typenameBlock = 1 from by decide, Nat.mul_one] at h
  exact h

theorem countOcc_ppTok_addTypename (l : List Char) :
    countOcc ppTok (addTypename l) = countOcc ppTok l := by
  have h := @countOcc_addTypename ppTok (by decide) (by decide) (by decide) l
  rw [show countOcc ppTok typenameBlock = 0 from by decide, Nat.mul_zero,
    Nat.add_zero] at h
  exact h

theorem no_hash_addTypename {l : List Char} (h : '#' ∉ l) : '#' ∉ addTypename l := by
  intro hm
  rcases mem_addTypename hm with h1 | h1
  · exact h h1
  · exact absurd h1 (by decide)

/-- `replace(/#.*$/gm, '')` is the identity on hash-free text. -/
theorem stripCommentsGo_id : ∀ {l : List Char}, '#' ∉ l → stripCommentsGo false l = l := by
  intro l
  induction l with
  | nil => intro _; rfl
  | cons c rest ih =>
      intro h
      have hc : ¬ c = '#' := fun hcc => h (hcc ▸ List.mem_cons_self c rest)
      simp only [stripCommentsGo, if_neg hc]
      rw [ih (fun hm => h (List.mem_cons_of_mem c hm))]

/-- Collapsing whitespace preserves `isPrefixOf` for any whitespace-free
pattern. -/
theorem isPrefixOf_collapseWsGo {p : List Char} :
    ∀ (hp : ∀ c ∈ p, isWsJS c = false) (l : List Char),
      p.isPrefixOf (collapseWsGo false l) = p.isPrefixOf l := by
  induction p with
  | nil => intro _ l; simp [List.isPrefixOf]
  | cons a p' ih =>
      intro hp l
      have ha : isWsJS a = false := hp a (List.mem_cons_self a p')
      have hp' : ∀ c ∈ p', isWsJS c = false :=
        fun c hc => hp c (List.mem_cons_of_mem a hc)
      cases l with
      | nil => rfl
      | cons c rest =>
          by_cases hc : isWsJS c = true
          · rw [show collapseWsGo false (c :: rest) = ' ' :: collapseWsGo true rest by
              simp [collapseWsGo, hc]]
            have hane : (a == ' ') = false := by
              cases hae : a == ' '
              · rfl
              · have hae' : a = ' ' := by simpa using hae
                rw [hae'] at ha
                exact absurd ha (by decide)
            have hane2 : (a == c) = false := by
              cases hae : a == c
              · rfl
              · have hac : a = c := by simpa using hae
                rw [hac, hc] at ha
                simp at ha
            simp [List.isPrefixOf, hane, hane2]
          · rw [show collapseWsGo false (c :: rest) = c :: collapseWsGo false rest by
              simp [collapseWsGo, hc]]
            simp only [List.isPrefixOf]
            rw [ih hp' rest]

/-- Collapsing whitespace preserves the occurrence count of any
whitespace-free pattern. -/
theorem countOcc_collapseWsGo {p : List Char} (hp : ∀ c ∈ p, isWsJS c = false)
    (hpne : p ≠ []) :
    ∀ (l : List Char) (mode : Bool),
      countOcc p (collapseWsGo mode l) = countOcc p l := by
  intro l
  induction l with
  | nil => intro mode; cases mode <;> rfl
  | cons c rest ih =>
      intro mode
      have hnsp : ∀ d ∈ p, d ≠ ' ' := by
        intro d hdp hde
        have h1 := hp d hdp
        rw [hde] at h1
        exact absurd h1 (by decide)
      by_cases hc : isWsJS c = true
      · have hnc : ∀ d ∈ p, d ≠ c := by
          intro d hdp hde
          have h1 := hp d hdp
          rw [hde, hc] at h1
          simp at h1
        cases mode with
        | false =>
            rw [show collapseWsGo false (c :: rest) = ' ' :: collapseWsGo true rest by
              simp [collapseWsGo, hc]]
            rw [countOcc_singleton_head hnsp hpne, ih true,
              countOcc_singleton_head hnc hpne]
        | true =>
            rw [show collapseWsGo true (c :: rest) = collapseWsGo true rest by
              simp [collapseWsGo, hc]]
            rw [ih true, countOcc_singleton_head hnc hpne]
      · rw [show collapseWsGo mode (c :: rest) = c :: collapseWsGo false rest by
          cases mode <;> simp [collapseWsGo, hc]]
        rw [countOcc_cons, countOcc_cons, ih false]
        congr 1
        have heq : collapseWsGo false (c :: rest) = c :: collapseWsGo false rest := by
          simp [collapseWsGo, hc]
        rw [← heq, isPrefixOf_collapseWsGo hp (c :: rest)]

/-- Removing whitespace around symbols preserves `isPrefixOf` for any
pattern free of whitespace and symbols. -/
theorem isPrefixOf_stripSymWsGo {p : List Char} :
    ∀ (hpw : ∀ c ∈ p, isWsJS c = false) (hps : ∀ c ∈ p, isSymChar c = false)
      (l : List Char), p.isPrefixOf (stripSymWsGo [] false l) = p.isPrefixOf l := by
  induction p with
  | nil => intro _ _ l; simp [List.isPrefixOf]
  | cons a p' ih =>
      intro hpw hps l
      have haw : isWsJS a = false := hpw a (List.mem_cons_self a p')
      have has : isSymChar a = false := hps a (List.mem_cons_self a p')
      cases l with
      | nil => rfl
      | cons c rest =>
          by_cases hcs : isSymChar c = true
          · rw [show stripSymWsGo [] false (c :: rest) = c :: stripSymWsGo [] true rest by
              simp [stripSymWsGo, hcs]]
            have hane : (a == c) = false := by
              cases hae : a == c
              · rfl
              · have hac : a = c := by simpa using hae
                rw [hac, hcs] at has
                simp at has
            simp [List.isPrefixOf, hane]
          · by_cases hcw : isWsJS c = true
            · rw [show stripSymWsGo [] false (c :: rest) = stripSymWsGo [c] false rest by
                simp [stripSymWsGo, hcs, hcw]]
              have hane : (a == c) = false := by
                cases hae : a == c
                · rfl
                · have hac : a = c := by simpa using hae
                  rw [hac, hcw] at haw
                  simp at haw
              rcases hout : stripSymWsGo [c] false rest with _ | ⟨d, out⟩
              · simp [List.isPrefixOf, hane]
              · have hd := stripSymWsGo_head_pending rest [] c false d
                  (by rw [hout]; rfl)
                have hane2 : (a == d) = false := by
                  cases hae : a == d
                  · rfl
                  · have had : a = d := by simpa using hae
                    rcases hd with hd | hd
                    · rw [had, hd, hcw] at haw
                      simp at haw
                    · rw [had, hd] at has
                      simp at has
                simp [List.isPrefixOf, hane, hane2]
            · rw [show stripSymWsGo [] false (c :: rest) =
                  c :: stripSymWsGo [] false rest by
                simp [stripSymWsGo, hcs, hcw]]
              simp only [List.isPrefixOf]
              rw [ih (fun x hx => hpw x (List.mem_cons_of_mem a hx))
                (fun x hx => hps x (List.mem_cons_of_mem a hx)) rest]

/-- A run of whitespace prepended to a string does not change the occurrence
count of a whitespace-free pattern. -/
theorem countOcc_ws_prepend {p : List Char} (hp : ∀ c ∈ p, isWsJS c = false)
    (hpne : p ≠ []) :
    ∀ (run X : List Char), (∀ c ∈ run, isWsJS c = true) →
      countOcc p (run ++ X) = countOcc p X := by
  intro run
  induction run with
  | nil => intro X _; rfl
  | cons w run' ih =>
      intro X hws
      have hw : isWsJS w = true := hws w (List.mem_cons_self w run')
      have hnw : ∀ d ∈ p, d ≠ w := by
        intro d hdp hde
        have h1 := hp d hdp
        rw [hde, hw] at h1
        simp at h1
      rw [List.cons_append, countOcc_singleton_head hnw hpne,
        ih X (fun c hc => hws c (List.mem_cons_of_mem w hc))]

/-- Removing whitespace around symbols preserves the occurrence count of
a pattern free of whitespace and symbols. -/
theorem countOcc_stripSymWsGo {p : List Char} (hpw : ∀ c ∈ p, isWsJS c = false)
    (hps : ∀ c ∈ p, isSymChar c = false) (hpne : p ≠ []) :
    ∀ (l pending : List Char) (skip : Bool), (∀ c ∈ pending, isWsJS c = true) →
      countOcc p (stripSymWsGo pending skip l) = countOcc p l := by
  intro l
  induction l with
  | nil =>
      intro pending skip hpend
      have hdisj : ∀ c ∈ pending, c ∉ p := by
        intro c hc hcp
        have h1 := hpw c hcp
        rw [hpend c hc] at h1
        simp at h1
      show countOcc p pending = countOcc p []
      rw [countOcc_nil, countOcc_zero_of_disjoint hpne hdisj]
  | cons c rest ih =>
      intro pending skip hpend
      by_cases hcs : isSymChar c = true
      · have hnc : ∀ d ∈ p, d ≠ c := by
          intro d hdp hde
          have h1 := hps d hdp
          rw [hde, hcs] at h1
          simp at h1
        rw [show stripSymWsGo pending skip (c :: rest) =
            c :: stripSymWsGo [] true rest by
          simp [stripSymWsGo, hcs]]
        rw [countOcc_singleton_head hnc hpne,
          ih [] true (by intro x hx; simp at hx),
          countOcc_singleton_head hnc hpne]
      · by_cases hcw : isWsJS c = true
        · have hnc : ∀ d ∈ p, d ≠ c := by
            intro d hdp hde
            have h1 := hpw d hdp
            rw [hde, hcw] at h1
            simp at h1
          cases skip with
          | true =>
              rw [show stripSymWsGo pending true (c :: rest) =
                  stripSymWsGo pending true rest by
                simp [stripSymWsGo, hcs, hcw]]
              rw [ih pending true hpend, countOcc_singleton_head hnc hpne]
          | false =>
              rw [show stripSymWsGo pending false (c :: rest) =
                  stripSymWsGo (pending ++ [c]) false rest by
                simp [stripSymWsGo, hcs, hcw]]
              rw [ih (pending ++ [c]) false (by
                  intro x hx
                  rcases List.mem_append.mp hx with h1 | h1
                  · exact hpend x h1
                  · rw [List.mem_singleton] at h1
                    exact h1 ▸ hcw),
                countOcc_singleton_head hnc hpne]
        · rw [show stripSymWsGo pending skip (c :: rest) =
              pending ++ c :: stripSymWsGo [] false rest by
            cases skip <;> simp [stripSymWsGo, hcs, hcw]]
          rw [countOcc_ws_prepend hpw hpne pending _ hpend]
          rw [countOcc_cons, countOcc_cons, ih [] false (by intro x hx; simp at hx)]
          congr 1
          have heq : stripSymWsGo [] false (c :: rest) =
              c :: stripSymWsGo [] false rest := by
            simp [stripSymWsGo, hcs, hcw]
          rw [← heq, isPrefixOf_stripSymWsGo hpw hps (c :: rest)]

/-- Trimming preserves the occurrence count of a whitespace-free pattern. -/
theorem countOcc_trimWs {p : List Char} (hpw : ∀ c ∈ p, isWsJS c = false)
    (hpne : p ≠ []) (l : List Char) :
    countOcc p (trimWs l) = countOcc p l := by
  unfold trimWs
  obtain ⟨r, hr, hrws⟩ := trimRight_decomp (l.dropWhile isWsJS)
  have h1 : countOcc p (l.dropWhile isWsJS) = countOcc p l := by
    conv_rhs => rw [← List.takeWhile_append_dropWhile isWsJS l]
    exact (countOcc_ws_prepend hpw hpne _ _
      (fun c hc => List.mem_takeWhile_imp hc)).symm
  have hj : ∀ c, r.head? = some c → c ∉ p := by
    intro c hc hcp
    have hcr : c ∈ r := by
      cases r with
      | nil => simp at hc
      | cons x xs =>
          rw [List.head?_cons] at hc
          injection hc with hc
          exact List.mem_cons.mpr (Or.inl hc.symm)
    have h2 := hpw c hcp
    rw [hrws c hcr] at h2
    simp at h2
  have h2 : countOcc p (l.dropWhile isWsJS) =
      countOcc p (trimRight (l.dropWhile isWsJS)) + countOcc p r := by
    conv_lhs => rw [hr]
    exact countOcc_append_sep _ _ (Or.inl hj)
  have h3 : countOcc p r = 0 := by
    refine countOcc_zero_of_disjoint hpne ?_
    intro c hc hcp
    have h4 := hpw c hcp
    rw [hrws c hc] at h4
    simp at h4
  omega

/-- `GetSubstitution` is the identity on a `$`-free replacement. -/
theorem expandDollar_id {matched before after : List Char} :
    ∀ {r : List Char}, '$' ∉ r → expandDollar matched before after r = r := by
  intro r
  induction r with
  | nil => intro _; rfl
  | cons c rest ih =>
      intro h
      have hc : ¬ c = '$' := fun hcc => h (hcc ▸ List.mem_cons_self c rest)
      have hrest := ih (fun hm => h (List.mem_cons_of_mem c hm))
      cases rest with
      | nil =>
          rw [show expandDollar matched before after [c] =
              if c = '$' then ['$']
              else c :: expandDollar matched before after [] from rfl,
            if_neg hc, hrest]
      | cons c2 rest2 =>
          rw [show expandDollar matched before after (c :: c2 :: rest2) =
              if c = '$' then
                (if c2 = '$' then '$' :: expandDollar matched before after rest2
                 else if c2 = '&' then matched ++ expandDollar matched before after rest2
                 else if c2 = Char.ofNat 96 then
                   before ++ expandDollar matched before after rest2
                 else if c2 = '\'' then after ++ expandDollar matched before after rest2
                 else '$' :: expandDollar matched before after (c2 :: rest2))
              else c :: expandDollar matched before after (c2 :: rest2) from rfl,
            if_neg hc, hrest]

/-- First-occurrence replacement of a pattern starting with `ppTok` lands
exactly on a planted occurrence when the preceding text is `ppTok`-free
(`ppTok` has no proper border, so no earlier or straddling match exists);
a `$`-free replacement is inserted verbatim. -/
theorem replaceFirstGo_sep {pat s : List Char} (hpat : ppTok.isPrefixOf pat = true)
    (hs : '$' ∉ s) :
    ∀ (Y Z acc : List Char), countOcc ppTok Y = 0 →
      replaceFirstGo pat s acc (Y ++ (pat ++ Z)) = acc.reverse ++ (Y ++ (s ++ Z)) := by
  have hplen : 17 ≤ pat.length := by
    have h := isPrefixOf_length_le hpat
    rw [ppTok_length] at h
    exact h
  intro Y
  induction Y with
  | nil =>
      intro Z acc _
      simp only [List.nil_append]
      obtain ⟨p0, pt, hp⟩ : ∃ p0 pt, pat = p0 :: pt := by
        cases hpp : pat with
        | nil =>
            rw [hpp] at hplen
            simp at hplen
        | cons a b => exact ⟨a, b, rfl⟩
      have hpre : pat.isPrefixOf (pat ++ Z) = true :=
        isPrefixOf_mono (List.isPrefixOf_iff_prefix.mpr (List.prefix_refl pat))
      rw [show replaceFirstGo pat s acc (pat ++ Z) =
          if pat.isPrefixOf (pat ++ Z) then
            acc.reverse ++
              expandDollar pat acc.reverse ((pat ++ Z).drop pat.length) s ++
              (pat ++ Z).drop pat.length
          else replaceFirstGo pat s (p0 :: acc) (pt ++ Z) from by rw [hp]; rfl,
        if_pos hpre, expandDollar_id hs, List.drop_left]
      simp [List.append_assoc]
  | cons c Y' ih =>
      intro Z acc hY
      have hY' : countOcc ppTok Y' = 0 := by
        rw [countOcc_cons] at hY
        split at hY
        · omega
        · omega
      have hnpre : ¬ ppTok.isPrefixOf (c :: Y') = true := by
        intro hp
        rw [countOcc_cons, if_pos hp] at hY
        omega
      have hmain : ¬ pat.isPrefixOf (c :: (Y' ++ (pat ++ Z))) = true := by
        intro hp
        rw [← List.cons_append] at hp
        have hpp : ppTok.isPrefixOf ((c :: Y') ++ (pat ++ Z)) = true := by
          rw [List.isPrefixOf_iff_prefix] at hpat hp ⊢
          exact hpat.trans hp
        by_cases hlen : 17 ≤ (c :: Y').length
        · exact hnpre (isPrefixOf_of_append (by rw [ppTok_length]; exact hlen) hpp)
        · push_neg at hlen
          have hlt : (c :: Y').length < ppTok.length := by
            rw [ppTok_length]
            omega
          obtain ⟨hx, hdrop⟩ := isPrefixOf_append_split hlt hpp
          have hdlen : (ppTok.drop (c :: Y').length).length ≤ pat.length := by
            rw [List.length_drop, ppTok_length]
            omega
          have hdpat := isPrefixOf_of_append hdlen hdrop
          have hdpp : (ppTok.drop (c :: Y').length) <+: ppTok :=
            List.prefix_of_prefix_length_le
              (List.isPrefixOf_iff_prefix.mp hdpat)
              (List.isPrefixOf_iff_prefix.mp hpat)
              (by rw [List.length_drop, ppTok_length]; omega)
          have heq : ppTok.drop (c :: Y').length =
              ppTok.take (17 - (c :: Y').length) := by
            have h5 := List.prefix_iff_eq_take.mp hdpp
            rw [List.length_drop, ppTok_length] at h5
            exact h5
          exact ppTok_no_border (c :: Y').length (by omega)
            (by rw [List.length_cons]; omega) heq
      rw [List.cons_append,
        show replaceFirstGo pat s acc (c :: (Y' ++ (pat ++ Z))) =
          if pat.isPrefixOf (c :: (Y' ++ (pat ++ Z))) then
            acc.reverse ++
              expandDollar pat acc.reverse ((c :: (Y' ++ (pat ++ Z))).drop pat.length) s ++
              (c :: (Y' ++ (pat ++ Z))).drop pat.length
          else replaceFirstGo pat s (c :: acc) (Y' ++ (pat ++ Z)) from rfl,
        if_neg hmain, ih Z (c :: acc) hY']
      simp [List.append_assoc]

theorem replaceFirst_sep {pat : List Char} (s : List Char)
    (hpat : ppTok.isPrefixOf pat = true) (hs : '$' ∉ s) :
    ∀ (Y Z : List Char), countOcc ppTok Y = 0 →
      replaceFirst (Y ++ (pat ++ Z)) pat s = Y ++ (s ++ Z) := by
  intro Y Z hY
  have h := replaceFirstGo_sep hpat hs Y Z [] hY
  show replaceFirstGo pat s [] (Y ++ (pat ++ Z)) = Y ++ (s ++ Z)
  simpa using h

theorem reassemble_cons (c : Char) (y0 : List Char) (ss yy : List (List Char)) :
    reassemble (c :: y0) ss yy = c :: reassemble y0 ss yy := by
  cases ss with
  | nil => rfl
  | cons s ss' =>
      cases yy with
      | nil => rfl
      | cons y yy' => simp [reassemble]

/-- Step 3 undoes step 1: restoring the sections into a string of the shape
`Y ++ placeholder i ++ y_1 ++ placeholder (i+1) ++ y_2 ++ ...` (with no stray
`ppTok` anywhere else) splices each section back in place of its
placeholder. -/
theorem restoreAll_interleave :
    ∀ (secs ys : List (List Char)) (i : Nat) (Y : List Char),
      countOcc ppTok Y = 0 →
      secs.length = ys.length →
      (∀ y ∈ ys, countOcc ppTok y = 0) →
      (∀ s ∈ secs, countOcc ppTok s = 0) →
      (∀ s ∈ secs, '$' ∉ s) →
      (∀ s ∈ secs, ∃ mid, s = '(' :: (mid ++ [')'])) →
      restoreAll (Y ++ phInterleave i ys) secs i = Y ++ restitch secs ys := by
  intro secs
  induction secs with
  | nil =>
      intro ys i Y _ hlen _ _ _ _
      cases ys with
      | nil => simp [restoreAll, phInterleave, restitch]
      | cons y yy => simp at hlen
  | cons s0 ss ih =>
      intro ys i Y hY hlen hys hsp hsd hss
      cases ys with
      | nil => simp at hlen
      | cons y0 yy =>
          obtain ⟨mid, hmid⟩ := hss s0 (List.mem_cons_self s0 ss)
          have hstep := replaceFirst_sep s0 (ppTok_isPrefixOf_placeholder i)
            (hsd s0 (List.mem_cons_self s0 ss)) Y
            (y0 ++ phInterleave (i + 1) yy) hY
          have hshape : Y ++ phInterleave i (y0 :: yy) =
              Y ++ (placeholder i ++ (y0 ++ phInterleave (i + 1) yy)) := by
            simp [phInterleave, List.append_assoc]
          rw [show restoreAll (Y ++ phInterleave i (y0 :: yy)) (s0 :: ss) i =
              restoreAll (replaceFirst (Y ++ phInterleave i (y0 :: yy))
                (placeholder i) s0) ss (i + 1) from rfl,
            hshape, hstep]
          have hj1 : ∀ c, s0.head? = some c → c ∉ ppTok := by
            intro c hc hcp
            rw [hmid, List.head?_cons] at hc
            injection hc with hc
            subst hc
            exact absurd hcp (by decide)
          have hj2 : ∀ c, (Y ++ s0).getLast? = some c → c ∉ ppTok := by
            intro c hc hcp
            have hre : Y ++ s0 = (Y ++ ('(' :: mid)) ++ [')'] := by
              rw [hmid]
              simp
            rw [hre, List.getLast?_concat] at hc
            injection hc with hc
            subst hc
            exact absurd hcp (by decide)
          have hY' : countOcc ppTok ((Y ++ s0) ++ y0) = 0 := by
            rw [countOcc_append_sep (Y ++ s0) y0 (Or.inr hj2),
              countOcc_append_sep Y s0 (Or.inl hj1), hY,
              hsp s0 (List.mem_cons_self s0 ss),
              hys y0 (List.mem_cons_self y0 yy)]
          have hlen' : ss.length = yy.length := by
            simp only [List.length_cons] at hlen
            omega
          rw [show Y ++ (s0 ++ (y0 ++ phInterleave (i + 1) yy)) =
              ((Y ++ s0) ++ y0) ++ phInterleave (i + 1) yy by
            simp [List.append_assoc]]
          rw [ih yy (i + 1) ((Y ++ s0) ++ y0) hY' hlen'
            (fun y hy => hys y (List.mem_cons_of_mem y0 hy))
            (fun x hx => hsp x (List.mem_cons_of_mem s0 hx))
            (fun x hx => hsd x (List.mem_cons_of_mem s0 hx))
            (fun x hx => hss x (List.mem_cons_of_mem s0 hx))]
          rw [show restitch (s0 :: ss) (y0 :: yy) =
            (s0 ++ y0) ++ restitch ss yy from by simp [restitch]]
          simp [List.append_assoc]

/-- The closing-brace count of the protected query equals the count of
braces outside parenthesis groups in the original query. -/
theorem protectParensGo_count (l : List Char) :
    (∀ i, List.count '\x7d' (protectParensGo i none l).1 =
      bracesOutsideParensGo none l) ∧
    (∀ i buf, List.count '\x7d' (protectParensGo i (some buf) l).1 =
      bracesOutsideParensGo (some (List.count '\x7d' buf)) l) := by
  induction l with
  | nil =>
      constructor
      · intro i
        rfl
      · intro i buf
        show List.count '\x7d' ('(' :: buf.reverse) = List.count '\x7d' buf
        simp [List.count_cons, List.count_reverse]
  | cons c rest ih =>
      constructor
      · intro i
        by_cases hc : c = '('
        · rw [show protectParensGo i none (c :: rest) =
              protectParensGo i (some []) rest by simp [protectParensGo, hc],
            show bracesOutsideParensGo none (c :: rest) =
              bracesOutsideParensGo (some 0) rest by simp [bracesOutsideParensGo, hc]]
          exact ih.2 i []
        · rw [show protectParensGo i none (c :: rest) =
              (c :: (protectParensGo i none rest).1, (protectParensGo i none rest).2) by
              simp [protectParensGo, hc],
            show bracesOutsideParensGo none (c :: rest) =
              (if c = '\x7d' then 1 else 0) + bracesOutsideParensGo none rest by
              simp [bracesOutsideParensGo, hc]]
          show List.count '\x7d' (c :: (protectParensGo i none rest).1) = _
          rw [List.count_cons, ih.1 i]
          by_cases hc2 : c = '\x7d'
          · simp [hc2, Nat.add_comm]
          · simp [hc2]
      · intro i buf
        by_cases hc : c = ')'
        · rw [show protectParensGo i (some buf) (c :: rest) =
              (placeholder i ++ (protectParensGo (i + 1) none rest).1,
                ('(' :: (buf.reverse ++ [')'])) :: (protectParensGo (i + 1) none rest).2) by
              simp [protectParensGo, hc],
            show bracesOutsideParensGo (some (List.count '\x7d' buf)) (c :: rest) =
              bracesOutsideParensGo none rest by simp [bracesOutsideParensGo, hc]]
          show List.count '\x7d'
              (placeholder i ++ (protectParensGo (i + 1) none rest).1) = _
          rw [List.count_append,
            List.count_eq_zero.mpr (placeholder_no_brace i), Nat.zero_add, ih.1 (i + 1)]
        · rw [show protectParensGo i (some buf) (c :: rest) =
              protectParensGo i (some (c :: buf)) rest by simp [protectParensGo, hc],
            show bracesOutsideParensGo (some (List.count '\x7d' buf)) (c :: rest) =
              bracesOutsideParensGo (some (List.count '\x7d' buf +
                (if c = '\x7d' then 1 else 0))) rest by
              simp [bracesOutsideParensGo, hc],
            ih.2 i (c :: buf)]
          congr 2
          rw [List.count_cons]
          by_cases hc2 : c = '\x7d'
          · simp [hc2]
          · simp [hc2]

/-- Structure of the protect pass: the output is plain fragments interleaved
with fresh placeholders, the collected sections are parenthesis groups, and
splicing the sections back between the fragments recovers the input. -/
theorem protectParensGo_struct (l : List Char) :
    (∀ i, ∃ y0 ys, (protectParensGo i none l).1 = y0 ++ phInterleave i ys ∧
      (protectParensGo i none l).2.length = ys.length ∧
      reassemble y0 (protectParensGo i none l).2 ys = l ∧
      (∀ s ∈ (protectParensGo i none l).2, ∃ mid, s = '(' :: (mid ++ [')']))) ∧
    (∀ i buf, ∃ y0 ys, (protectParensGo i (some buf) l).1 = y0 ++ phInterleave i ys ∧
      (protectParensGo i (some buf) l).2.length = ys.length ∧
      reassemble y0 (protectParensGo i (some buf) l).2 ys = '(' :: (buf.reverse ++ l) ∧
      (∀ s ∈ (protectParensGo i (some buf) l).2, ∃ mid, s = '(' :: (mid ++ [')']))) := by
  induction l with
  | nil =>
      constructor
      · intro i
        exact ⟨[], [], rfl, rfl, rfl, fun s hs => absurd hs (List.not_mem_nil s)⟩
      · intro i buf
        refine ⟨'(' :: buf.reverse, [], ?_, rfl, ?_,
          fun s hs => absurd hs (List.not_mem_nil s)⟩
        · show '(' :: buf.reverse = ('(' :: buf.reverse) ++ phInterleave i []
          simp [phInterleave]
        · show '(' :: buf.reverse = '(' :: (buf.reverse ++ [])
          simp
  | cons c rest ih =>
      constructor
      · intro i
        by_cases hc : c = '('
        · obtain ⟨y0, ys, h1, h2, h3, h4⟩ := ih.2 i []
          rw [show protectParensGo i none (c :: rest) =
              protectParensGo i (some []) rest by simp [protectParensGo, hc]]
          exact ⟨y0, ys, h1, h2, by rw [h3, hc]; simp, h4⟩
        · obtain ⟨y0, ys, h1, h2, h3, h4⟩ := ih.1 i
          rw [show protectParensGo i none (c :: rest) =
              (c :: (protectParensGo i none rest).1, (protectParensGo i none rest).2) by
              simp [protectParensGo, hc]]
          refine ⟨c :: y0, ys, ?_, h2, ?_, h4⟩
          · show c :: (protectParensGo i none rest).1 = (c :: y0) ++ phInterleave i ys
            rw [h1]
            rfl
          · show reassemble (c :: y0) (protectParensGo i none rest).2 ys = c :: rest
            rw [reassemble_cons, h3]
      · intro i buf
        by_cases hc : c = ')'
        · obtain ⟨y0, ys, h1, h2, h3, h4⟩ := ih.1 (i + 1)
          rw [show protectParensGo i (some buf) (c :: rest) =
              (placeholder i ++ (protectParensGo (i + 1) none rest).1,
                ('(' :: (buf.reverse ++ [')'])) :: (protectParensGo (i + 1) none rest).2) by
              simp [protectParensGo, hc]]
          refine ⟨[], y0 :: ys, ?_, ?_, ?_, ?_⟩
          · show placeholder i ++ (protectParensGo (i + 1) none rest).1 =
              [] ++ phInterleave i (y0 :: ys)
            rw [h1]
            simp [phInterleave, List.append_assoc]
          · show (('(' :: (buf.reverse ++ [')'])) ::
                (protectParensGo (i + 1) none rest).2).length = (y0 :: ys).length
            simp only [List.length_cons, h2]
          · show reassemble [] (('(' :: (buf.reverse ++ [')'])) ::
                (protectParensGo (i + 1) none rest).2) (y0 :: ys) =
              '(' :: (buf.reverse ++ (c :: rest))
            rw [show reassemble [] (('(' :: (buf.reverse ++ [')'])) ::
                (protectParensGo (i + 1) none rest).2) (y0 :: ys) =
              [] ++ ('(' :: (buf.reverse ++ [')'])) ++
                reassemble y0 (protectParensGo (i + 1) none rest).2 ys from rfl,
              h3, hc]
            simp [List.append_assoc]
          · intro s hs
            rcases List.mem_cons.mp hs with h5 | h5
            · exact ⟨buf.reverse, h5⟩
            · exact h4 s h5
        · obtain ⟨y0, ys, h1, h2, h3, h4⟩ := ih.2 i (c :: buf)
          rw [show protectParensGo i (some buf) (c :: rest) =
              protectParensGo i (some (c :: buf)) rest by simp [protectParensGo, hc]]
          refine ⟨y0, ys, h1, h2, ?_, h4⟩
          rw [h3]
          simp [List.reverse_cons, List.append_assoc]

/-- A pattern absent from the reassembled string is absent from every
fragment and every section. -/
theorem reassemble_extract {p : List Char} (hpne : p ≠ []) :
    ∀ (secs ys : List (List Char)) (y0 l : List Char),
      secs.length = ys.length →
      reassemble y0 secs ys = l → countOcc p l = 0 →
      countOcc p y0 = 0 ∧ (∀ s ∈ secs, countOcc p s = 0) ∧
        (∀ y ∈ ys, countOcc p y = 0) := by
  intro secs
  induction secs with
  | nil =>
      intro ys y0 l hlen hre hl
      refine ⟨?_, fun s hs => absurd hs (List.not_mem_nil s), ?_⟩
      · rw [show reassemble y0 [] ys = y0 from rfl] at hre
        rw [hre]
        exact hl
      · cases ys with
        | nil => exact fun y hy => absurd hy (List.not_mem_nil y)
        | cons y yy => simp at hlen
  | cons s0 ss ih =>
      intro ys y0 l hlen hre hl
      cases ys with
      | nil => simp at hlen
      | cons yh yy =>
          rw [show reassemble y0 (s0 :: ss) (yh :: yy) =
            y0 ++ s0 ++ reassemble yh ss yy from rfl] at hre
          subst hre
          have h1 : countOcc p (y0 ++ s0) = 0 := countOcc_zero_of_left hl
          have hy0 : countOcc p y0 = 0 := countOcc_zero_of_left h1
          have hs0 : countOcc p s0 = 0 := countOcc_zero_of_right h1
          have hrest : countOcc p (reassemble yh ss yy) = 0 := countOcc_zero_of_right hl
          have hlen' : ss.length = yy.length := by
            simp only [List.length_cons] at hlen
            omega
          obtain ⟨hyh, hss, hyy⟩ := ih yy yh _ hlen' rfl hrest
          refine ⟨hy0, ?_, ?_⟩
          · intro s hs
            rcases List.mem_cons.mp hs with h | h
            · exact h ▸ hs0
            · exact hss s h
          · intro y hy
            rcases List.mem_cons.mp hy with h | h
            · exact h ▸ hyh
            · exact hyy y h

/-- A character absent from the reassembled string is absent from every
fragment and every section. -/
theorem reassemble_not_mem {c : Char} :
    ∀ (secs ys : List (List Char)) (y0 l : List Char),
      secs.length = ys.length →
      reassemble y0 secs ys = l → c ∉ l →
      c ∉ y0 ∧ (∀ s ∈ secs, c ∉ s) ∧ (∀ y ∈ ys, c ∉ y) := by
  intro secs
  induction secs with
  | nil =>
      intro ys y0 l hlen hre hl
      refine ⟨?_, fun s hs => absurd hs (List.not_mem_nil s), ?_⟩
      · rw [show reassemble y0 [] ys = y0 from rfl] at hre
        rw [hre]
        exact hl
      · cases ys with
        | nil => exact fun y hy => absurd hy (List.not_mem_nil y)
        | cons y yy => simp at hlen
  | cons s0 ss ih =>
      intro ys y0 l hlen hre hl
      cases ys with
      | nil => simp at hlen
      | cons yh yy =>
          rw [show reassemble y0 (s0 :: ss) (yh :: yy) =
            y0 ++ s0 ++ reassemble yh ss yy from rfl] at hre
          subst hre
          rw [List.mem_append, List.mem_append] at hl
          push_neg at hl
          obtain ⟨⟨hy0, hs0⟩, hrest⟩ := hl
          have hlen' : ss.length = yy.length := by
            simp only [List.length_cons] at hlen
            omega
          obtain ⟨hyh, hss, hyy⟩ := ih yy yh _ hlen' rfl hrest
          refine ⟨hy0, ?_, ?_⟩
          · intro s hs
            rcases List.mem_cons.mp hs with h | h
            · exact h ▸ hs0
            · exact hss s h
          · intro y hy
            rcases List.mem_cons.mp hy with h | h
            · exact h ▸ hyh
            · exact hyy y h

/-- The closing braces of the protected query all come from the plain
fragments (the placeholders are brace-free). -/
theorem count_brace_phInterleave :
    ∀ (ys : List (List Char)) (i : Nat),
      List.count '\x7d' (phInterleave i ys) =
        (ys.map (List.count '\x7d')).sum := by
  intro ys
  induction ys with
  | nil => intro i; rfl
  | cons y yy ih =>
      intro i
      show List.count '\x7d' ((placeholder i ++ y) ++ phInterleave (i + 1) yy) = _
      rw [List.count_append, List.count_append,
        List.count_eq_zero.mpr (placeholder_no_brace i), ih (i + 1)]
      simp

/-- Step 2 acts fragment-wise on the protected query: the placeholders are
brace-free, so they pass through unchanged. -/
theorem addTypename_phInterleave :
    ∀ (ys : List (List Char)) (i : Nat),
      addTypename (phInterleave i ys) = phInterleave i (ys.map addTypename) := by
  intro ys
  induction ys with
  | nil => intro i; rfl
  | cons y yy ih =>
      intro i
      show addTypename ((placeholder i ++ y) ++ phInterleave (i + 1) yy) = _
      rw [addTypename_append, addTypename_append,
        addTypename_id_of_no_brace (placeholder_no_brace i), ih (i + 1)]
      rfl

theorem mem_restitch {c : Char} :
    ∀ (secs ys : List (List Char)), c ∈ restitch secs ys →
      (∃ s ∈ secs, c ∈ s) ∨ (∃ y ∈ ys, c ∈ y) := by
  intro secs
  induction secs with
  | nil =>
      intro ys h
      rw [show restitch [] ys = [] from rfl] at h
      simp at h
  | cons s0 ss ih =>
      intro ys h
      cases ys with
      | nil =>
          rw [show restitch (s0 :: ss) [] = [] from rfl] at h
          simp at h
      | cons y0 yy =>
          rw [show restitch (s0 :: ss) (y0 :: yy) =
              (s0 ++ y0) ++ restitch ss yy from rfl,
            List.mem_append, List.mem_append] at h
          rcases h with (h | h) | h
          · exact Or.inl ⟨s0, List.mem_cons_self s0 ss, h⟩
          · exact Or.inr ⟨y0, List.mem_cons_self y0 yy, h⟩
          · rcases ih yy h with ⟨s, hs, hcs⟩ | ⟨y, hy, hcy⟩
            · exact Or.inl ⟨s, List.mem_cons_of_mem s0 hs, hcs⟩
            · exact Or.inr ⟨y, List.mem_cons_of_mem y0 hy, hcy⟩

theorem restitch_head_paren :
    ∀ (secs ys : List (List Char)),
      (∀ s ∈ secs, ∃ mid, s = '(' :: (mid ++ [')'])) →
      ∀ c, (restitch secs ys).head? = some c → c = '(' := by
  intro secs ys hss c hc
  cases secs with
  | nil =>
      rw [show restitch [] ys = [] from rfl] at hc
      simp at hc
  | cons s0 ss =>
      cases ys with
      | nil =>
          rw [show restitch (s0 :: ss) [] = [] from rfl] at hc
          simp at hc
      | cons y0 yy =>
          obtain ⟨mid, hmid⟩ := hss s0 (List.mem_cons_self s0 ss)
          rw [show restitch (s0 :: ss) (y0 :: yy) =
              (s0 ++ y0) ++ restitch ss yy from rfl, hmid] at hc
          rw [show ((('(' :: (mid ++ [')'])) ++ y0) ++ restitch ss yy).head? =
            some '(' from rfl] at hc
          injection hc with hc
          exact hc.symm

/-- Occurrence count over the restored tail: with a pattern free of
parentheses, the occurrences split cleanly at the section boundaries. -/
theorem countOcc_restitch {p : List Char} (hpne : p ≠ [])
    (hpa : '(' ∉ p) (hpb : ')' ∉ p) :
    ∀ (secs ys : List (List Char)), secs.length = ys.length →
      (∀ s ∈ secs, ∃ mid, s = '(' :: (mid ++ [')'])) →
      countOcc p (restitch secs ys) =
        (secs.map (countOcc p)).sum + (ys.map (countOcc p)).sum := by
  intro secs
  induction secs with
  | nil =>
      intro ys hlen _
      cases ys with
      | nil => rfl
      | cons y yy => simp at hlen
  | cons s0 ss ih =>
      intro ys hlen hss
      cases ys with
      | nil => simp at hlen
      | cons y0 yy =>
          obtain ⟨mid, hmid⟩ := hss s0 (List.mem_cons_self s0 ss)
          have hlen' : ss.length = yy.length := by
            simp only [List.length_cons] at hlen
            omega
          have hjlast : ∀ c, s0.getLast? = some c → c ∉ p := by
            intro c hc hcp
            rw [hmid, show ('(' :: (mid ++ [')'])) = ('(' :: mid) ++ [')'] from rfl,
              List.getLast?_concat] at hc
            injection hc with hc
            subst hc
            exact hpb hcp
          have hj2 : ∀ c, (restitch ss yy).head? = some c → c ∉ p := by
            intro c hc hcp
            have h5 := restitch_head_paren ss yy
              (fun x hx => hss x (List.mem_cons_of_mem s0 hx)) c hc
            subst h5
            exact hpa hcp
          show countOcc p ((s0 ++ y0) ++ restitch ss yy) = _
          rw [show (s0 ++ y0) ++ restitch ss yy = s0 ++ (y0 ++ restitch ss yy) by
              simp [List.append_assoc],
            countOcc_append_sep s0 _ (Or.inr hjlast),
            countOcc_append_sep y0 _ (Or.inl hj2),
            ih yy hlen' (fun x hx => hss x (List.mem_cons_of_mem s0 hx))]
          simp only [List.map_cons, List.sum_cons]
          omega

/-- Main counting fact for the compressor: on an input free of `#`, of the
token `__typename` and of the placeholder stem `__PROTECTED_PARAM`, the
output contains exactly one `__typename` occurrence per closing brace that
was outside every parenthesis group. -/
theorem compressChars_tok_count {l : List Char}
    (hnh : '#' ∉ l) (hnd : '$' ∉ l) (hnt : countOcc typenameTok l = 0)
    (hnp : countOcc ppTok l = 0) :
    countOcc typenameTok (compressChars l) = bracesOutsideParens l := by
  obtain ⟨y0, ys, hA, hBlen, hC, hD⟩ := (protectParensGo_struct l).1 0
  obtain ⟨hy0p, hssp, hysp⟩ :=
    @reassemble_extract ppTok (by decide) _ _ _ _ hBlen hC hnp
  obtain ⟨hy0t, hsst, hyst⟩ :=
    @reassemble_extract typenameTok (by decide) _ _ _ _ hBlen hC hnt
  obtain ⟨hy0h, hssh, hysh⟩ :=
    @reassemble_not_mem '#' _ _ _ _ hBlen hC hnh
  obtain ⟨hy0d, hssd, hysd⟩ :=
    @reassemble_not_mem '$' _ _ _ _ hBlen hC hnd
  have h2 : addTypename (protectParensGo 0 none l).1 =
      addTypename y0 ++ phInterleave 0 (ys.map addTypename) := by
    rw [hA, addTypename_append, addTypename_phInterleave]
  have h3 : restoreAll (addTypename (protectParensGo 0 none l).1)
      (protectParensGo 0 none l).2 0 =
      addTypename y0 ++ restitch (protectParensGo 0 none l).2 (ys.map addTypename) := by
    rw [h2]
    exact restoreAll_interleave _ _ 0 _
      (by rw [countOcc_ppTok_addTypename]; exact hy0p)
      (by rw [List.length_map]; exact hBlen)
      (by
        intro y hy
        obtain ⟨y', hy', rfl⟩ := List.mem_map.mp hy
        rw [countOcc_ppTok_addTypename]
        exact hysp y' hy')
      hssp hssd hD
  have h4 : '#' ∉ restoreAll (addTypename (protectParensGo 0 none l).1)
      (protectParensGo 0 none l).2 0 := by
    rw [h3]
    intro hm
    rcases List.mem_append.mp hm with hm1 | hm1
    · exact no_hash_addTypename hy0h hm1
    · rcases mem_restitch _ _ hm1 with ⟨s, hs, hcs⟩ | ⟨y, hy, hcy⟩
      · exact hssh s hs hcs
      · obtain ⟨y', hy', rfl⟩ := List.mem_map.mp hy
        exact no_hash_addTypename (hysh y' hy') hcy
  have htw : ∀ c ∈ typenameTok, isWsJS c = false := by
    intro c hc
    exact Bool.eq_false_iff.mpr (tok_chars c hc).1
  have hts : ∀ c ∈ typenameTok, isSymChar c = false := by
    intro c hc
    exact Bool.eq_false_iff.mpr (tok_chars c hc).2.1
  have htne : typenameTok ≠ [] := by decide
  have hpipe : compressChars l =
      trimWs (stripSymWsGo [] false (collapseWsGo false (stripCommentsGo false
        (restoreAll (addTypename (protectParensGo 0 none l).1)
          (protectParensGo 0 none l).2 0)))) := rfl
  rw [hpipe, stripCommentsGo_id h4, countOcc_trimWs htw htne,
    countOcc_stripSymWsGo htw hts htne _ [] false
      (fun x hx => absurd hx (List.not_mem_nil x)),
    countOcc_collapseWsGo htw htne _ false, h3,
    countOcc_append_sep _ _ (Or.inl (fun c hc hcp => by
      have h5 := restitch_head_paren _ _ hD c hc
      subst h5
      exact absurd hcp (by decide))),
    @countOcc_restitch typenameTok (by decide) (by decide) (by decide) _ _
      (by rw [List.length_map]; exact hBlen) hD]
  have hmapeq : List.map (countOcc typenameTok) (List.map addTypename ys) =
      List.map (List.count '\x7d') ys := by
    rw [List.map_map]
    apply List.map_congr_left
    intro y hy
    show countOcc typenameTok (addTypename y) = List.count '\x7d' y
    rw [countOcc_tok_addTypename, hyst y hy, Nat.zero_add]
  have hsecs0 : (List.map (countOcc typenameTok) (protectParensGo 0 none l).2).sum
      = 0 := by
    apply List.sum_eq_zero
    intro x hx
    obtain ⟨s, hs, rfl⟩ := List.mem_map.mp hx
    exact hsst s hs
  rw [countOcc_tok_addTypename y0, hy0t, Nat.zero_add, hmapeq, hsecs0, Nat.zero_add]
  have hcount := (protectParensGo_count l).1 0
  rw [hA, List.count_append, count_brace_phInterleave ys 0] at hcount
  rw [show bracesOutsideParens l = bracesOutsideParensGo none l from rfl, ← hcount]

/-- C2 (counterexample): the balanced-brace query `\x7ba #\x7d` — whose only
closing brace lies outside every parenthesis group — compresses to `\x7ba`,
which contains no typename-selection token: comment stripping runs after
typename insertion, so a brace on a comment line loses its inserted block. -/
theorem claim_C2_counterexample :
    balancedBraces "\x7ba #\x7d".data = true ∧
    compressGraphQLQuery "\x7ba #\x7d" = "\x7ba" ∧
    bracesOutsideParens "\x7ba #\x7d".data = 1 ∧
    countOcc typenameTok (compressGraphQLQuery "\x7ba #\x7d").data = 0 := by
  refine ⟨by decide, ?_, by decide, by decide⟩
  decide

/-- C2 (amended): for every balanced-brace query free of line comments, of
`$` characters, of the literal token `__typename` and of the placeholder
stem `__PROTECTED_PARAM`, the compressed output has no whitespace adjacent
to any of `\x7b \x7d ( ) , :`, contains no `#`, and contains exactly one
`__typename` occurrence per closing brace of the original query that was
not inside a parenthesis-delimited group. -/
theorem claim_C2_amended (q : String) (hbal : balancedBraces q.data = true)
    (hnh : '#' ∉ q.data) (hnd : '$' ∉ q.data)
    (hnt : countOcc typenameTok q.data = 0)
    (hnp : countOcc ppTok q.data = 0) :
    noWsAdj (compressGraphQLQuery q).data = true ∧
    '#' ∉ (compressGraphQLQuery q).data ∧
    countOcc typenameTok (compressGraphQLQuery q).data =
      bracesOutsideParens q.data := by
  by_cases hq : q = ""
  · subst hq
    exact ⟨rfl, fun h => absurd h (List.not_mem_nil '#'), rfl⟩
  · have hdata : (compressGraphQLQuery q).data = compressChars q.data := by
      unfold compressGraphQLQuery
      rw [if_neg hq]
    rw [hdata]
    exact ⟨compressChars_noWsAdj q.data, compressChars_no_hash q.data,
      compressChars_tok_count hnh hnd hnt hnp⟩

theorem claim_C2_amended_witness :
    (balancedBraces "query (a: 1) \x7b b \x7d".data = true ∧
      '#' ∉ "query (a: 1) \x7b b \x7d".data ∧
      '$' ∉ "query (a: 1) \x7b b \x7d".data ∧
      countOcc typenameTok "query (a: 1) \x7b b \x7d".data = 0 ∧
      countOcc ppTok "query (a: 1) \x7b b \x7d".data = 0) ∧
    (noWsAdj (compressGraphQLQuery "query (a: 1) \x7b b \x7d").data = true ∧
      '#' ∉ (compressGraphQLQuery "query (a: 1) \x7b b \x7d").data ∧
      countOcc typenameTok (compressGraphQLQuery "query (a: 1) \x7b b \x7d").data =
        bracesOutsideParens "query (a: 1) \x7b b \x7d".data) :=
  ⟨⟨by decide, by decide, by decide, by decide, by decide⟩,
    claim_C2_amended _ (by decide) (by decide) (by decide) (by decide) (by decide)⟩

end GqlProxy
